import Mathlib

/-!
# Leaderboard service: a shallow embedding of `services/leaderboard.go`

The Go service keeps a slice of users sorted by rating (descending) together
with two maps whose values are pointers `&s.users[i]` into the backing array
of that slice.  A pointer of that shape is modelled by the slot number `i`:
dereferencing it reads whatever user currently occupies slot `i`, which is
exactly what happens in Go after `sort.Slice` permutes the array in place.

Conventions of the embedding

* Go `int` is `Int`; where an addition can leave the 64-bit range the result
  is wrapped with `wrapInt`.
* slice lengths and slot numbers are `Nat`.
* a run-time panic (index out of range, nil dereference, `make` capacity out
  of range, `rand.Intn` with a non-positive argument) is the result `none`.
* loops without a syntactic bound carry a fuel argument; running out of fuel
  is also `none`, and the theorems show it does not happen.
* `sort.Slice` is not stable and its arrangement of ties is unspecified, so it
  enters as a parameter `SliceSorter` carrying only what the Go documentation
  promises: the result is a rearrangement of the input, ordered by `less`.
-/

namespace Leaderboard

/-! ## models/user.go -/

/-- A leaderboard user with their rating. -/
structure User where
  ID : Int
  Username : String
  Rating : Int
deriving DecidableEq, Repr

/-- A user with their computed rank. -/
structure LeaderboardEntry where
  Rank : Int
  Username : String
  Rating : Int
  ID : Int
deriving DecidableEq, Repr

/-- A search result with global rank. -/
structure SearchResult where
  GlobalRank : Int
  Username : String
  Rating : Int
  ID : Int
deriving DecidableEq, Repr

/-! ## Go built-ins used by the service -/

/-- Two's-complement wrap-around of a 64-bit Go `int`. -/
def wrapInt (x : Int) : Int :=
  (x + 2 ^ 63) % 2 ^ 64 - 2 ^ 63

/-- Go map read `v, exists := m[k]` on a map kept as a list of bindings with
    at most one binding per key. -/
def mapGet {K V : Type} [DecidableEq K] : List (K × V) → K → Option V
  | [], _ => none
  | (k1, v) :: m, k => if k = k1 then some v else mapGet m k

/-- Go map write `m[k] = v`: overwrite the binding of `k` or add one. -/
def mapSet {K V : Type} [DecidableEq K] : List (K × V) → K → V → List (K × V)
  | [], k, v => [(k, v)]
  | (k1, v1) :: m, k, v => if k = k1 then (k, v) :: m else (k1, v1) :: mapSet m k v

/-- The loop of Go's `sort.Search(n, f)`:
    `i, j := 0, n; for i < j { h := int(uint(i+j) >> 1); if !f(h) { i = h + 1 } else { j = h } }; return i`.
    The predicate may panic (`none`).  `fuel` bounds the number of iterations. -/
def searchLoop (f : Nat → Option Bool) : Nat → Nat → Nat → Option Nat
  | 0, i, j => if i < j then none else some i
  | fuel + 1, i, j =>
    if i < j then
      let h := (i + j) / 2
      match f h with
      | none => none
      | some false => searchLoop f fuel (h + 1) j
      | some true => searchLoop f fuel i h
    else some i

/-- Go's `sort.Search(n, f)`; the interval `[i, j)` shrinks at every iteration,
    so `n` iterations are enough. -/
def Search (n : Nat) (f : Nat → Option Bool) : Option Nat :=
  searchLoop f n 0 n

/-! ## services/leaderboard.go -/

/-- The in-memory leaderboard.  `userByID` and `userByName` hold, for each key,
    the slot of `users` the Go pointer refers to. -/
structure LeaderboardService where
  users : List User
  userByID : List (Int × Nat)
  userByName : List (String × Nat)
deriving DecidableEq, Repr

/-- A new leaderboard service instance: empty slice, empty maps. -/
def NewLeaderboardService : LeaderboardService :=
  { users := [], userByID := [], userByName := [] }

/-- The comparison handed to `sort.Slice` in `sortUsers`:
    `s.users[i].Rating > s.users[j].Rating`. -/
def ratingLess (a b : User) : Bool :=
  decide (a.Rating > b.Rating)

/-- What `sort.Slice(s.users, less)` is documented to do: rearrange the slice so
    that no later element is `less` than an earlier one.  Nothing is promised
    about the order of elements that compare equal. -/
structure SliceSorter where
  run : List User → List User
  perm : ∀ l, (run l).Perm l
  sorted : ∀ l, (run l).Pairwise (fun a b => ratingLess b a = false)

/-- The re-pointing loop of `sortUsers`:
    `for i := range s.users { s.userByID[s.users[i].ID] = &s.users[i]; s.userByName[s.users[i].Username] = &s.users[i] }`.
    The first argument is the part of the slice still to visit, `i` its first slot. -/
def reindexLoop : List User → Nat → LeaderboardService → LeaderboardService
  | [], _, s => s
  | u :: rest, i, s =>
    reindexLoop rest (i + 1)
      { s with userByID := mapSet s.userByID u.ID i,
               userByName := mapSet s.userByName u.Username i }

/-- Sort users by rating descending, then update the map pointers. -/
def sortUsers (srt : SliceSorter) (s : LeaderboardService) : LeaderboardService :=
  let sorted := srt.run s.users
  reindexLoop sorted 0 { s with users := sorted }

/-- The thirty first names of `SeedUsers`. -/
def firstNames : List String :=
  ["rahul", "priya", "amit", "neha", "vikram", "ananya", "rohan", "sneha", "arjun", "kavita",
   "sanjay", "meera", "karan", "pooja", "raj", "divya", "nikhil", "riya", "varun", "shweta",
   "aditya", "anjali", "manish", "nisha", "suresh", "deepika", "akash", "shreya", "vikas",
   "kritika"]

/-- The thirty last names of `SeedUsers`. -/
def lastNames : List String :=
  ["sharma", "kumar", "singh", "patel", "gupta", "joshi", "verma", "rao", "reddy", "iyer",
   "nair", "menon", "pillai", "shah", "mehta", "agarwal", "jain", "mishra", "pandey", "trivedi",
   "chopra", "malhotra", "kapoor", "khanna", "bhatia", "sethi", "arora", "bansal", "garg",
   "saxena"]

/-- The outcomes of the random source during one iteration of the seeding loop,
    in call order: `rand.Intn(len(firstNames))`, `rand.Intn(len(lastNames))`,
    `rand.Intn(1000)`, `rand.Float32() > 0.3`, `rand.Intn(maxRating-minRating+1)`.
    The numbers are raw; `Intn` reduces them into the requested range. -/
structure Draw where
  first : Nat
  last : Nat
  suffix : Nat
  coin : Bool
  rating : Nat
deriving DecidableEq, Repr

/-- Go's `rand.Intn(n)`: panics when `n <= 0`, otherwise some value of `[0, n)`;
    every value of the range is the image of some raw outcome. -/
def Intn (raw : Nat) (n : Int) : Option Int :=
  if n ≤ 0 then none else some ((raw : Int) % n)

/-- Go's `strconv.Itoa` on a non-negative counter: its decimal numeral. -/
def Itoa (n : Nat) : String :=
  Nat.repr n

/-- The candidate username of one iteration, before the uniqueness loop. -/
def candidateName (d : Draw) : Option String :=
  match Intn d.first firstNames.length with
  | none => none
  | some fi =>
    match firstNames.get? fi.toNat with
    | none => none
    | some firstName =>
      match Intn d.last lastNames.length with
      | none => none
      | some li =>
        match lastNames.get? li.toNat with
        | none => none
        | some lastName =>
          match Intn d.suffix 1000 with
          | none => none
          | some suffix =>
            let username := if d.coin then firstName ++ "_" ++ lastName else firstName
            some (if suffix > 500
              then username ++ "_" ++ String.singleton (Char.ofNat (48 + (suffix % 10).toNat))
              else username)

/-- The uniqueness loop of `SeedUsers`:
    `for { if _, exists := s.userByName[username]; !exists { break }; username = baseUsername + "_" + strconv.Itoa(counter); counter++ }`.
    It yields the final username together with the final counter. -/
def uniqueLoop (byName : List (String × Nat)) (baseUsername : String) :
    Nat → String → Nat → Option (String × Nat)
  | 0, _, _ => none
  | fuel + 1, username, counter =>
    match mapGet byName username with
    | none => some (username, counter)
    | some _ =>
      uniqueLoop byName baseUsername fuel (baseUsername ++ "_" ++ Itoa counter) (counter + 1)

/-- One iteration of the seeding loop: build the username, make it unique,
    draw the rating, append the user and point both maps at the new last slot. -/
def seedUser (s : LeaderboardService) (i minRating maxRating : Int) (d : Draw) :
    Option LeaderboardService :=
  match candidateName d with
  | none => none
  | some baseUsername =>
    match uniqueLoop s.userByName baseUsername (s.userByName.length + 1) baseUsername 1 with
    | none => none
    | some (username, _) =>
      match Intn d.rating (wrapInt (wrapInt (maxRating - minRating) + 1)) with
      | none => none
      | some off =>
        let user : User := { ID := i, Username := username, Rating := wrapInt (minRating + off) }
        let users := s.users ++ [user]
        some { users := users,
               userByID := mapSet s.userByID user.ID (users.length - 1),
               userByName := mapSet s.userByName user.Username (users.length - 1) }

/-- The seeding loop `for i := 1; i <= n; i++`; `rnd i` are the random outcomes
    of iteration `i`. -/
def seedLoop (rnd : Nat → Draw) (n minRating maxRating : Int) :
    Nat → Int → LeaderboardService → Option LeaderboardService
  | 0, i, s => if i ≤ n then none else some s
  | fuel + 1, i, s =>
    if i ≤ n then
      match seedUser s i minRating maxRating (rnd i.toNat) with
      | none => none
      | some s1 => seedLoop rnd n minRating maxRating fuel (i + 1) s1
    else some s

/-- The largest request, in bytes, that Go's `runtime.makeslice` grants on a
    64-bit target (`maxAlloc`, 48 address bits). -/
def maxAlloc : Int :=
  2 ^ 48

/-- The size in bytes of one `models.User` on a 64-bit target: an `int`, a
    string header (pointer and length) and an `int`. -/
def userSize : Int :=
  32

/-- Generate `n` random users with ratings between `minRating` and `maxRating`,
    replacing whatever the store held.  `make([]models.User, 0, n)` comes first
    and panics (`makeslice: cap out of range`), before anything is assigned,
    when `n` is negative or `n` users need more bytes than `maxAlloc`; its
    capacity `n` means `append` never moves the backing array. -/
def SeedUsers (srt : SliceSorter) (rnd : Nat → Draw) (_s : LeaderboardService)
    (n minRating maxRating : Int) : Option (Int × LeaderboardService) :=
  if n < 0 ∨ userSize * n > maxAlloc then none
  else
    match seedLoop rnd n minRating maxRating n.toNat 1 NewLeaderboardService with
    | none => none
    | some s1 =>
      let s2 := sortUsers srt s1
      some ((s2.users.length : Int), s2)

/-- The predicate of the boundary search: `s.users[i].Rating <= rating`,
    panicking when `i` is not an index of the slice. -/
def rankPred (users : List User) (rating : Int) (i : Nat) : Option Bool :=
  match users.get? i with
  | none => none
  | some u => some (decide (u.Rating ≤ rating))

/-- Rank without acquiring the lock: `sort.Search(len(s.users), ...) + 1`. -/
def getTieAwareRankUnlocked (s : LeaderboardService) (rating : Int) : Option Int :=
  match Search s.users.length (rankPred s.users rating) with
  | none => none
  | some idx => some ((idx : Int) + 1)

/-- The exported rank query: the same search, under the read lock. -/
def GetTieAwareRank (s : LeaderboardService) (rating : Int) : Option Int :=
  match Search s.users.length (rankPred s.users rating) with
  | none => none
  | some idx => some ((idx : Int) + 1)

/-- The page loop of `GetLeaderboard`:
    `for i := offset; i < end; i++ { user := s.users[i]; rank := ...; entries = append(entries, ...) }`. -/
def pageLoop (s : LeaderboardService) (stop : Int) :
    Nat → Int → List LeaderboardEntry → Option (List LeaderboardEntry)
  | 0, i, entries => if i < stop then none else some entries
  | fuel + 1, i, entries =>
    if i < stop then
      if i < 0 then none
      else
        match s.users.get? i.toNat with
        | none => none
        | some user =>
          match getTieAwareRankUnlocked s user.Rating with
          | none => none
          | some rank =>
            pageLoop s stop fuel (i + 1)
              (entries ++ [{ Rank := rank, Username := user.Username,
                             Rating := user.Rating, ID := user.ID }])
    else some entries

/-- A paginated list of leaderboard entries with tie-aware ranks, and the total.
    `stop` is the Go variable `end`.  `make(..., 0, end-offset)` panics when
    `end - offset` is negative; should that difference itself wrap around, the
    requested capacity is beyond any allocation and `make` panics as well. -/
def GetLeaderboard (s : LeaderboardService) (limit offset : Int) :
    Option (List LeaderboardEntry × Int) :=
  let total : Int := s.users.length
  if offset ≥ total then some ([], total)
  else
    let stop0 := wrapInt (offset + limit)
    let stop := if stop0 > total then total else stop0
    if stop - offset < 0 then none
    else
      match pageLoop s stop (stop - offset).toNat offset [] with
      | none => none
      | some entries => some (entries, total)

/-- Go's `strings.ToLower`: every code point mapped through `unicode.ToLower`,
    which is the parameter `lower`. -/
def ToLower (lower : Char → Char) (str : String) : String :=
  String.mk (str.data.map lower)

/-- Go's `strings.Contains(s, substr)`: `substr` occurs in `s` as a contiguous
    block. -/
def Contains (str substr : String) : Bool :=
  decide (substr.data <:+: str.data)

/-- The scan of `SearchUsers`: `for _, user := range s.users { if strings.Contains(...) { ... append ... } }`,
    with `query` already lowercased. -/
def searchLoopUsers (lower : Char → Char) (s : LeaderboardService) (query : String) :
    List User → List SearchResult → Option (List SearchResult)
  | [], results => some results
  | user :: rest, results =>
    if Contains (ToLower lower user.Username) query then
      match getTieAwareRankUnlocked s user.Rating with
      | none => none
      | some rank =>
        searchLoopUsers lower s query rest
          (results ++ [{ GlobalRank := rank, Username := user.Username,
                         Rating := user.Rating, ID := user.ID }])
    else searchLoopUsers lower s query rest results

/-- Find users whose username contains the query string. -/
def SearchUsers (lower : Char → Char) (s : LeaderboardService) (query : String) :
    Option (List SearchResult) :=
  searchLoopUsers lower s (ToLower lower query) s.users []

/-- Dereference of a map value: the user in the slot the pointer refers to.
    A slot outside the slice stands for a pointer that cannot be followed. -/
def deref (s : LeaderboardService) (p : Nat) : Option User :=
  s.users.get? p

/-- A user by their ID with their global rank; `(nil, false)` when absent. -/
def GetUserByID (s : LeaderboardService) (id : Int) : Option (Option SearchResult × Bool) :=
  match mapGet s.userByID id with
  | none => some (none, false)
  | some p =>
    match deref s p with
    | none => none
    | some user =>
      match getTieAwareRankUnlocked s user.Rating with
      | none => none
      | some rank =>
        some (some { GlobalRank := rank, Username := user.Username,
                     Rating := user.Rating, ID := user.ID }, true)

/-- The assignment `user.Rating = newRating` through the pointer `p`. -/
def setRating (s : LeaderboardService) (p : Nat) (newRating : Int) : Option LeaderboardService :=
  match deref s p with
  | none => none
  | some user => some { s with users := s.users.set p { user with Rating := newRating } }

/-- Update a user's rating and re-sort the leaderboard.  The result is the
    returned pair together with the store afterwards. -/
def UpdateRating (srt : SliceSorter) (s : LeaderboardService) (id newRating : Int) :
    Option ((Option SearchResult × Bool) × LeaderboardService) :=
  match mapGet s.userByID id with
  | none => some ((none, false), s)
  | some p =>
    match setRating s p newRating with
    | none => none
    | some s1 =>
      let s2 := sortUsers srt s1
      match mapGet s2.userByID id with
      | none => none
      | some q =>
        match deref s2 q with
        | none => none
        | some user =>
          match getTieAwareRankUnlocked s2 user.Rating with
          | none => none
          | some rank =>
            some ((some { GlobalRank := rank, Username := user.Username,
                          Rating := user.Rating, ID := user.ID }, true), s2)

/-- The total number of users. -/
def GetTotalUsers (s : LeaderboardService) : Int :=
  s.users.length

/-! ## handlers/leaderboard.go -/

/-- The JSON object `gin.H` the leaderboard endpoint answers with. -/
structure PageResponse where
  data : List LeaderboardEntry
  total : Int
  limit : Int
  offset : Int
  hasMore : Bool
deriving DecidableEq, Repr

/-- The handler of `GET /api/leaderboard`, from the two parsed query integers
    on: clamp `limit` and `offset`, ask the store, build the answer.  The sum
    `offset+limit` in `hasMore` is a machine addition. -/
def LeaderboardHandler.GetLeaderboard (s : LeaderboardService) (limit offset : Int) :
    Option PageResponse :=
  let limit1 := if limit ≤ 0 then 50 else limit
  let limit2 := if limit1 > 100 then 100 else limit1
  let offset1 := if offset < 0 then 0 else offset
  match Leaderboard.GetLeaderboard s limit2 offset1 with
  | none => none
  | some (entries, total) =>
    some { data := entries, total := total, limit := limit2, offset := offset1,
           hasMore := decide (wrapInt (offset1 + limit2) < total) }

/-! ## A concrete `sort.Slice` for evaluation -/

/-- Insertion sort by rating, descending: one admissible behaviour of
    `sort.Slice` (it happens to keep ties in their previous order). -/
def insertionSorter : SliceSorter where
  run := fun l => l.insertionSort (fun a b => b.Rating ≤ a.Rating)
  perm := fun l => List.perm_insertionSort _ l
  sorted := fun l => by
    haveI : IsTotal User (fun a b => b.Rating ≤ a.Rating) := ⟨fun a b => le_total b.Rating a.Rating⟩
    haveI : IsTrans User (fun a b => b.Rating ≤ a.Rating) := ⟨fun _ _ _ h1 h2 => le_trans h2 h1⟩
    have h := List.sorted_insertionSort (fun a b : User => b.Rating ≤ a.Rating) l
    refine List.Pairwise.imp ?_ h
    intro a b hab
    simp [ratingLess]
    exact hab

/-- Insertion sort of the reversed slice: another admissible behaviour of
    `sort.Slice`, which leaves ties in the opposite order. -/
def tieReversingSorter : SliceSorter where
  run := fun l => l.reverse.insertionSort (fun a b => b.Rating ≤ a.Rating)
  perm := fun l => (List.perm_insertionSort _ l.reverse).trans (List.reverse_perm l)
  sorted := fun l => by
    haveI : IsTotal User (fun a b => b.Rating ≤ a.Rating) := ⟨fun a b => le_total b.Rating a.Rating⟩
    haveI : IsTrans User (fun a b => b.Rating ≤ a.Rating) := ⟨fun _ _ _ h1 h2 => le_trans h2 h1⟩
    have h := List.sorted_insertionSort (fun a b : User => b.Rating ≤ a.Rating) l.reverse
    refine List.Pairwise.imp ?_ h
    intro a b hab
    simp [ratingLess]
    exact hab

/-! ## Specification vocabulary -/

/-- The sequence is sorted by rating, descending. -/
def SortedDesc (users : List User) : Prop :=
  users.Pairwise (fun a b => b.Rating ≤ a.Rating)

/-- Number of users whose rating is strictly greater than `r`. -/
def higherCount (users : List User) (r : Int) : Nat :=
  users.countP (fun u => decide (r < u.Rating))

/-- The leaderboard entry the specification assigns to a user: its own id,
    username and rating, with rank 1 + the number of strictly higher ratings. -/
def entryOf (users : List User) (u : User) : LeaderboardEntry :=
  { Rank := 1 + (higherCount users u.Rating : Int), Username := u.Username,
    Rating := u.Rating, ID := u.ID }

/-- The search result the specification assigns to a user: its own id, username
    and rating, with rank 1 + the number of strictly higher ratings. -/
def resultOf (users : List User) (u : User) : SearchResult :=
  { GlobalRank := 1 + (higherCount users u.Rating : Int), Username := u.Username,
    Rating := u.Rating, ID := u.ID }

instance instDecidableSortedDesc (users : List User) : Decidable (SortedDesc users) :=
  inferInstanceAs (Decidable (users.Pairwise (fun (a b : User) => b.Rating ≤ a.Rating)))

/-- The re-pointing loop of `sortUsers` seen on one map alone, `key` being the
    field the map is keyed by. -/
def reindexBy {K : Type} [DecidableEq K] (key : User → K) :
    List User → Nat → List (K × Nat) → List (K × Nat)
  | [], _, m => m
  | u :: rest, i, m => reindexBy key rest (i + 1) (mapSet m (key u) i)

/-- Every binding of a map keyed by `key` belongs to some user of the sequence. -/
def KeysCovered {K : Type} [DecidableEq K] (key : User → K) (users : List User)
    (m : List (K × Nat)) : Prop :=
  ∀ k p, mapGet m k = some p → ∃ u ∈ users, key u = k

/-- A map keyed by `key` is consistent with the sequence: its keys are exactly
    the key values of the users in the sequence, and the pointer stored under a
    key leads to a user of the sequence carrying that key. -/
def IndexOK {K : Type} [DecidableEq K] (key : User → K) (users : List User)
    (m : List (K × Nat)) : Prop :=
  (∀ k, (∃ p, mapGet m k = some p) ↔ ∃ u ∈ users, key u = k) ∧
  (∀ k p, mapGet m k = some p → ∃ u, users.get? p = some u ∧ key u = k)

/-- Index consistency of a store: both maps are consistent with the sequence. -/
def IndexConsistent (s : LeaderboardService) : Prop :=
  IndexOK (fun u => u.ID) s.users s.userByID ∧
  IndexOK (fun u => u.Username) s.users s.userByName

/-- Every pointer of the ID index refers to a slot of the sequence. -/
def RefsValid (s : LeaderboardService) : Prop :=
  ∀ id p, mapGet s.userByID id = some p → p < s.users.length

/-- A consistent store: sorted sequence, unique ids, consistent indexes. -/
def Consistent (s : LeaderboardService) : Prop :=
  SortedDesc s.users ∧ (s.users.map (fun u => u.ID)).Nodup ∧ IndexConsistent s

/-- The states the service can be in: the new store, and whatever a returning
    `SeedUsers` or `UpdateRating` leaves behind.  The read operations do not
    change the state.  A call that panics leaves the store it started from
    (`UpdateRating`, `SeedUsers` with a capacity `make` refuses) or the empty store
    (`SeedUsers` stopped in its first iteration), both of which are reachable
    already. -/
inductive Reachable (srt : SliceSorter) : LeaderboardService → Prop
  | new : Reachable srt NewLeaderboardService
  | seed (rnd : Nat → Draw) (s : LeaderboardService) (n minRating maxRating k : Int)
      (s1 : LeaderboardService) :
      Reachable srt s → SeedUsers srt rnd s n minRating maxRating = some (k, s1) →
      Reachable srt s1
  | update (s : LeaderboardService) (id newRating : Int) (out : Option SearchResult × Bool)
      (s1 : LeaderboardService) :
      Reachable srt s → UpdateRating srt s id newRating = some (out, s1) →
      Reachable srt s1

/-- The number a list of decimal digit characters denotes. -/
def digitsValue (ds : List Char) : Nat :=
  ds.foldl (fun acc c => acc * 10 + (c.toNat - 48)) 0

/-- The usernames the uniqueness loop tries, in order: the base name itself,
    then the base name followed by `_1`, `_2`, ... -/
def tryName (baseUsername : String) : Nat → String
  | 0 => baseUsername
  | k + 1 => baseUsername ++ "_" ++ Itoa (k + 1)

/-- Random outcomes that make `SeedUsers(5, 100, 900)` produce the ratings
    `[500, 500, 300, 900, 100]` of the example scenarios; the first two users
    draw the same name, so the uniqueness loop has to run. -/
def exampleRnd (i : Nat) : Draw :=
  match i with
  | 1 => ⟨0, 0, 0, false, 400⟩
  | 2 => ⟨0, 0, 0, false, 400⟩
  | 3 => ⟨2, 0, 0, false, 200⟩
  | 4 => ⟨3, 0, 0, false, 800⟩
  | _ => ⟨4, 0, 0, false, 0⟩

/-- The store of the example scenarios: ratings `[900, 500, 500, 300, 100]`
    in sequence order, the maps pointing at the slots of their users. -/
def exampleStore : LeaderboardService :=
  { users := [⟨4, "neha", 900⟩, ⟨1, "rahul", 500⟩, ⟨2, "rahul_1", 500⟩,
              ⟨3, "amit", 300⟩, ⟨5, "vikram", 100⟩],
    userByID := [(1, 1), (2, 2), (3, 3), (4, 0), (5, 4)],
    userByName := [("rahul", 1), ("rahul_1", 2), ("amit", 3), ("neha", 0), ("vikram", 4)] }

/-- The example store after `UpdateRating(3, 1000)` under `insertionSorter`. -/
def exampleUpdated : LeaderboardService :=
  { users := [⟨3, "amit", 1000⟩, ⟨4, "neha", 900⟩, ⟨1, "rahul", 500⟩, ⟨2, "rahul_1", 500⟩,
              ⟨5, "vikram", 100⟩],
    userByID := [(1, 2), (2, 3), (3, 0), (4, 1), (5, 4)],
    userByName := [("rahul", 2), ("rahul_1", 3), ("amit", 0), ("neha", 1), ("vikram", 4)] }

/-- The example store as `tieReversingSorter` arranges it: the two users rated
    500 stand in the other order. -/
def exampleStoreSwapped : LeaderboardService :=
  { users := [⟨4, "neha", 900⟩, ⟨2, "rahul_1", 500⟩, ⟨1, "rahul", 500⟩,
              ⟨3, "amit", 300⟩, ⟨5, "vikram", 100⟩],
    userByID := [(1, 2), (2, 1), (3, 3), (4, 0), (5, 4)],
    userByName := [("rahul", 2), ("rahul_1", 1), ("amit", 3), ("neha", 0), ("vikram", 4)] }

/-- The ids `1, 2, ..., n` in order. -/
def idsUpTo (n : Int) : List Int :=
  (List.range n.toNat).map (fun (j : Nat) => (j : Int) + 1)

/-- What a page shows apart from identities: the total and, entry by entry,
    rank and rating. -/
def rankRatingView (page : List LeaderboardEntry × Int) : List (Int × Int) × Int :=
  (page.1.map (fun e => (e.Rank, e.Rating)), page.2)

/-! ## Go map laws -/

theorem mapGet_mapSet {K V : Type} [DecidableEq K] (m : List (K × V)) (k k2 : K) (v : V) :
    mapGet (mapSet m k v) k2 = if k2 = k then some v else mapGet m k2 := by
  induction m with
  | nil => simp [mapSet, mapGet]
  | cons e m ih =>
    obtain ⟨k1, v1⟩ := e
    by_cases h : k = k1
    · subst h
      by_cases h2 : k2 = k <;> simp [mapSet, mapGet, h2]
    · by_cases h2 : k2 = k1
      · subst h2
        have : ¬ k2 = k := fun e => h e.symm
        simp [mapSet, mapGet, h, this]
      · simp [mapSet, mapGet, h, h2, ih]

/-! ## The boundary search -/

/-- The binary search finds the boundary `c` of a predicate that is false
    below `c` and true from `c` on. -/
theorem searchLoop_boundary (f : Nat → Option Bool) (n c : Nat)
    (hf : ∀ k, k < n → f k = some (decide (c ≤ k))) :
    ∀ fuel i j, i ≤ c → c ≤ j → j ≤ n → j - i ≤ fuel → searchLoop f fuel i j = some c := by
  intro fuel
  induction fuel with
  | zero =>
    intro i j hi hj _ hfuel
    have hij : ¬ i < j := by omega
    have hic : i = c := by omega
    subst hic
    simp only [searchLoop]
    rw [if_neg hij]
  | succ fuel ih =>
    intro i j hi hj hn hfuel
    by_cases hij : i < j
    · have hh : (i + j) / 2 < n := by omega
      simp only [searchLoop, hij, if_true]
      rw [hf _ hh]
      by_cases hc : c ≤ (i + j) / 2
      · simp only [hc, decide_True]
        exact ih i ((i + j) / 2) hi hc (by omega) (by omega)
      · simp only [hc, decide_False]
        exact ih ((i + j) / 2 + 1) j (by omega) hj hn (by omega)
    · have hic : i = c := by omega
      subst hic
      simp only [searchLoop]
      rw [if_neg hij]

theorem higherCount_eq_zero (l : List User) (r : Int) (h : ∀ b ∈ l, b.Rating ≤ r) :
    higherCount l r = 0 := by
  unfold higherCount
  rw [List.countP_eq_zero]
  intro b hb
  have := h b hb
  simp
  omega

/-- In a sequence sorted by rating descending the users rated at most `r`
    are exactly those from slot `higherCount` on. -/
theorem rankPred_sorted (l : List User) (r : Int) (h : SortedDesc l) :
    ∀ k, k < l.length → rankPred l r k = some (decide (higherCount l r ≤ k)) := by
  induction l with
  | nil => intro k hk; simp at hk
  | cons a t ih =>
    intro k hk
    have hs := List.pairwise_cons.1 h
    by_cases har : r < a.Rating
    · have hcnt : higherCount (a :: t) r = higherCount t r + 1 := by
        simp [higherCount, List.countP_cons, har]
      cases k with
      | zero =>
        have : ¬ a.Rating ≤ r := by omega
        simp [rankPred, hcnt, this]
      | succ k =>
        have hk2 : k < t.length := by simpa using hk
        have := ih hs.2 k hk2
        simp only [rankPred, List.get?_cons_succ] at this ⊢
        rw [this, hcnt]
        simp
    · have hall : ∀ b ∈ a :: t, b.Rating ≤ r := by
        intro b hb
        rcases List.mem_cons.1 hb with rfl | hb
        · omega
        · have := hs.1 b hb
          omega
      have hcnt : higherCount (a :: t) r = 0 := higherCount_eq_zero _ _ hall
      rw [hcnt]
      unfold rankPred
      rw [List.get?_eq_get hk]
      have := hall _ (List.get_mem (a :: t) k hk)
      simpa using this

theorem higherCount_le_length (l : List User) (r : Int) : higherCount l r ≤ l.length :=
  List.countP_le_length _

theorem Search_sorted (l : List User) (r : Int) (h : SortedDesc l) :
    Search l.length (rankPred l r) = some (higherCount l r) :=
  searchLoop_boundary _ _ _ (rankPred_sorted l r h) _ 0 _ (Nat.zero_le _)
    (higherCount_le_length l r) (le_refl _) (by omega)

theorem rank_sorted (s : LeaderboardService) (r : Int) (h : SortedDesc s.users) :
    getTieAwareRankUnlocked s r = some (1 + (higherCount s.users r : Int)) := by
  simp [getTieAwareRankUnlocked, Search_sorted _ _ h, add_comm]


/-! ## Counting strictly higher ratings -/

theorem higherCount_mono (l : List User) (a b : Int) (hab : b ≤ a) :
    higherCount l a ≤ higherCount l b := by
  induction l with
  | nil => simp [higherCount]
  | cons u t ih =>
    simp only [higherCount, List.countP_cons] at ih ⊢
    by_cases h1 : a < u.Rating
    · have h2 : b < u.Rating := by omega
      simp only [h1, h2, decide_True, if_true]
      omega
    · by_cases h2 : b < u.Rating
      · simp only [h1, h2, decide_True, decide_False, if_true]
        simp
        omega
      · simp only [h1, h2, decide_False]
        simp
        omega

theorem higherCount_lt (l : List User) (a b : Int) (hab : b < a)
    (hmem : ∃ u ∈ l, u.Rating = a) : higherCount l a < higherCount l b := by
  induction l with
  | nil => obtain ⟨u, hu, _⟩ := hmem; simp at hu
  | cons u t ih =>
    obtain ⟨v, hv, hva⟩ := hmem
    have hm := higherCount_mono t a b (le_of_lt hab)
    simp only [higherCount, List.countP_cons] at ih hm ⊢
    rcases List.mem_cons.1 hv with rfl | hvt
    · have h1 : ¬ a < v.Rating := by omega
      have h2 : b < v.Rating := by omega
      simp only [h1, h2, decide_True, decide_False, if_true]
      simp
      omega
    · have := ih ⟨v, hvt, hva⟩
      by_cases h1 : a < u.Rating
      · have h2 : b < u.Rating := by omega
        simp only [h1, h2, decide_True, if_true]
        omega
      · by_cases h2 : b < u.Rating
        · simp only [h1, h2, decide_True, decide_False, if_true]
          simp
          omega
        · simp only [h1, h2, decide_False]
          simp
          omega

/-! ## The re-pointing loop -/

theorem reindexLoop_eq (l : List User) : ∀ (i : Nat) (s : LeaderboardService),
    reindexLoop l i s =
      { users := s.users,
        userByID := reindexBy (fun u => u.ID) l i s.userByID,
        userByName := reindexBy (fun u => u.Username) l i s.userByName } := by
  induction l with
  | nil => intro i s; simp [reindexLoop, reindexBy]
  | cons u rest ih => intro i s; simp [reindexLoop, reindexBy, ih]

/-- After the re-pointing loop over `l` (whose first element sits in slot `i`)
    a key either belongs to an element of `l` and points at the slot of such an
    element, or belongs to none and keeps its old binding. -/
theorem reindexBy_get {K : Type} [DecidableEq K] (key : User → K) (l : List User) :
    ∀ (i : Nat) (m : List (K × Nat)) (k : K),
      (∃ j u, l.get? j = some u ∧ key u = k ∧ mapGet (reindexBy key l i m) k = some (i + j)) ∨
      ((∀ u ∈ l, key u ≠ k) ∧ mapGet (reindexBy key l i m) k = mapGet m k) := by
  induction l with
  | nil => intro i m k; right; simp [reindexBy]
  | cons a t ih =>
    intro i m k
    rcases ih (i + 1) (mapSet m (key a) i) k with ⟨j, u, hj, hu, hget⟩ | ⟨hno, hget⟩
    · left
      refine ⟨j + 1, u, by simpa using hj, hu, ?_⟩
      simp only [reindexBy]
      rw [hget]
      congr 1
      omega
    · by_cases hk : k = key a
      · left
        refine ⟨0, a, by simp, hk.symm, ?_⟩
        simp only [reindexBy]
        rw [hget, mapGet_mapSet]
        simp [hk]
      · right
        refine ⟨?_, ?_⟩
        · intro u hu
          rcases List.mem_cons.1 hu with rfl | hu
          · exact fun e => hk e.symm
          · exact hno u hu
        · simp only [reindexBy]
          rw [hget, mapGet_mapSet]
          simp [hk]

theorem sortUsers_users (srt : SliceSorter) (s : LeaderboardService) :
    (sortUsers srt s).users = srt.run s.users := by
  simp [sortUsers, reindexLoop_eq]

theorem sortUsers_userByID (srt : SliceSorter) (s : LeaderboardService) :
    (sortUsers srt s).userByID = reindexBy (fun u => u.ID) (srt.run s.users) 0 s.userByID := by
  simp [sortUsers, reindexLoop_eq]

theorem sortUsers_userByName (srt : SliceSorter) (s : LeaderboardService) :
    (sortUsers srt s).userByName =
      reindexBy (fun u => u.Username) (srt.run s.users) 0 s.userByName := by
  simp [sortUsers, reindexLoop_eq]

theorem sorter_sortedDesc (srt : SliceSorter) (l : List User) : SortedDesc (srt.run l) := by
  refine List.Pairwise.imp ?_ (srt.sorted l)
  intro a b hab
  simpa [ratingLess] using hab

theorem sortUsers_sorted (srt : SliceSorter) (s : LeaderboardService) :
    SortedDesc (sortUsers srt s).users := by
  rw [sortUsers_users]
  exact sorter_sortedDesc srt _

/-- Re-pointing a map whose keys all belong to users of `l0`, over a
    rearrangement `l` of `l0`, makes it consistent with `l`. -/
theorem reindexBy_indexOK {K : Type} [DecidableEq K] (key : User → K) (l0 l : List User)
    (m : List (K × Nat)) (hperm : l.Perm l0) (hcov : KeysCovered key l0 m) :
    IndexOK key l (reindexBy key l 0 m) := by
  refine ⟨?_, ?_⟩
  · intro k
    constructor
    · rintro ⟨p, hp⟩
      rcases reindexBy_get key l 0 m k with ⟨j, u, hj, hu, _⟩ | ⟨_, hget⟩
      · exact ⟨u, List.get?_mem hj, hu⟩
      · rw [hget] at hp
        obtain ⟨u, hu, hk⟩ := hcov k p hp
        exact ⟨u, hperm.symm.subset hu, hk⟩
    · rintro ⟨u, hu, hk⟩
      rcases reindexBy_get key l 0 m k with ⟨j, _, _, _, hget⟩ | ⟨hno, _⟩
      · exact ⟨_, hget⟩
      · exact absurd hk (hno u hu)
  · intro k p hp
    rcases reindexBy_get key l 0 m k with ⟨j, u, hj, hu, hget⟩ | ⟨hno, hget⟩
    · rw [hget] at hp
      have : p = j := by simpa using hp.symm
      subst this
      exact ⟨u, hj, hu⟩
    · rw [hget] at hp
      obtain ⟨u, hu, hk⟩ := hcov k p hp
      exact absurd hk (hno u (hperm.symm.subset hu))

theorem sortUsers_indexConsistent (srt : SliceSorter) (s : LeaderboardService)
    (h1 : KeysCovered (fun u => u.ID) s.users s.userByID)
    (h2 : KeysCovered (fun u => u.Username) s.users s.userByName) :
    IndexConsistent (sortUsers srt s) := by
  unfold IndexConsistent
  rw [sortUsers_users, sortUsers_userByID, sortUsers_userByName]
  exact ⟨reindexBy_indexOK _ _ _ _ (srt.perm _) h1, reindexBy_indexOK _ _ _ _ (srt.perm _) h2⟩

theorem IndexOK.keysCovered {K : Type} [DecidableEq K] {key : User → K} {l : List User}
    {m : List (K × Nat)} (h : IndexOK key l m) : KeysCovered key l m := by
  intro k p hp
  exact (h.1 k).1 ⟨p, hp⟩


/-! ## UpdateRating -/

/-- The store `UpdateRating` leaves behind when the id is bound to slot `p`
    holding `u`. -/
theorem UpdateRating_cases (srt : SliceSorter) (s : LeaderboardService) (id r : Int)
    (out : Option SearchResult × Bool) (s1 : LeaderboardService)
    (h : UpdateRating srt s id r = some (out, s1)) :
    (mapGet s.userByID id = none ∧ out = (none, false) ∧ s1 = s) ∨
    (∃ p u, mapGet s.userByID id = some p ∧ s.users.get? p = some u ∧
      s1 = sortUsers srt { s with users := s.users.set p { u with Rating := r } } ∧
      ∃ q user rank, mapGet s1.userByID id = some q ∧ s1.users.get? q = some user ∧
        getTieAwareRankUnlocked s1 user.Rating = some rank ∧
        out = (some { GlobalRank := rank, Username := user.Username,
                      Rating := user.Rating, ID := user.ID }, true)) := by
  unfold UpdateRating at h
  cases hget : mapGet s.userByID id with
  | none =>
    rw [hget] at h
    simp only [Option.some.injEq, Prod.mk.injEq] at h
    exact Or.inl ⟨rfl, h.1.symm, h.2.symm⟩
  | some p =>
    rw [hget] at h
    right
    simp only [setRating, deref] at h
    cases hu : s.users.get? p with
    | none => rw [hu] at h; simp at h
    | some u =>
      rw [hu] at h
      simp only at h
      cases hq : mapGet (sortUsers srt { s with users := s.users.set p { u with Rating := r } }).userByID id with
      | none => rw [hq] at h; simp at h
      | some q =>
        rw [hq] at h
        simp only at h
        cases huser : (sortUsers srt { s with users := s.users.set p { u with Rating := r } }).users.get? q with
        | none => rw [huser] at h; simp at h
        | some user =>
          rw [huser] at h
          simp only at h
          cases hrank : getTieAwareRankUnlocked (sortUsers srt { s with users := s.users.set p { u with Rating := r } }) user.Rating with
          | none => rw [hrank] at h; simp at h
          | some rank =>
            rw [hrank] at h
            simp only [Option.some.injEq, Prod.mk.injEq] at h
            obtain ⟨h1, h2⟩ := h
            subst h2
            exact ⟨p, u, rfl, hu, rfl, q, user, rank, hq, huser, hrank, h1.symm⟩

theorem map_set_same {β : Type} (f : User → β) (u1 : User) :
    ∀ (l : List User) (p : Nat) (u : User), l.get? p = some u → f u1 = f u →
      (l.set p u1).map f = l.map f := by
  intro l
  induction l with
  | nil => intro p u h; simp at h
  | cons a t ih =>
    intro p u h hf
    cases p with
    | zero =>
      simp at h
      subst h
      simp [hf]
    | succ p =>
      simp at h
      simp [List.set, ih p u (by simpa using h) hf]

theorem keysCovered_of_map_eq {K : Type} [DecidableEq K] (key : User → K) (l1 l2 : List User)
    (m : List (K × Nat)) (hmap : ∀ k, k ∈ l1.map key → k ∈ l2.map key)
    (h : KeysCovered key l1 m) : KeysCovered key l2 m := by
  intro k p hp
  obtain ⟨u, hu, hk⟩ := h k p hp
  have : k ∈ l2.map key := hmap k (List.mem_map.2 ⟨u, hu, hk⟩)
  obtain ⟨v, hv, hvk⟩ := List.mem_map.1 this
  exact ⟨v, hv, hvk⟩

theorem keysCovered_set {K : Type} [DecidableEq K] (key : User → K) (l : List User)
    (m : List (K × Nat)) (p : Nat) (u u1 : User) (hp : l.get? p = some u)
    (hkey : key u1 = key u) (h : KeysCovered key l m) : KeysCovered key (l.set p u1) m := by
  refine keysCovered_of_map_eq key l _ m ?_ h
  intro k hk
  rw [map_set_same key u1 l p u hp hkey]
  exact hk

/-- The store after a found `UpdateRating`: the target slot gets the new
    rating, then `sortUsers` runs. -/
theorem updated_indexConsistent (srt : SliceSorter) (s : LeaderboardService) (p : Nat)
    (u : User) (r : Int) (hp : s.users.get? p = some u) (h : IndexConsistent s) :
    IndexConsistent (sortUsers srt { s with users := s.users.set p { u with Rating := r } }) := by
  apply sortUsers_indexConsistent
  · exact keysCovered_set _ _ _ p u _ hp rfl h.1.keysCovered
  · exact keysCovered_set _ _ _ p u _ hp rfl h.2.keysCovered

theorem IndexConsistent.refsValid {s : LeaderboardService} (h : IndexConsistent s) :
    RefsValid s := by
  intro id p hp
  obtain ⟨u, hu, _⟩ := h.1.2 id p hp
  exact (List.get?_eq_some.1 hu).1

/-- The pair returned on the found path, once the second lookup is known. -/
theorem UpdateRating_found_eq (srt : SliceSorter) (s : LeaderboardService) (id r : Int)
    (p q : Nat) (u user : User) (hget : mapGet s.userByID id = some p)
    (hu : s.users.get? p = some u)
    (hq : mapGet (sortUsers srt { s with users := s.users.set p { u with Rating := r } }).userByID id
            = some q)
    (huser : (sortUsers srt { s with users := s.users.set p { u with Rating := r } }).users.get? q
            = some user) :
    UpdateRating srt s id r =
      some ((some { GlobalRank := 1 + (higherCount
                      (sortUsers srt { s with users := s.users.set p { u with Rating := r } }).users
                      user.Rating : Int),
                    Username := user.Username, Rating := user.Rating, ID := user.ID }, true),
            sortUsers srt { s with users := s.users.set p { u with Rating := r } }) := by
  simp only [UpdateRating, setRating, deref, hget, hu, hq, huser,
    rank_sorted _ _ (sortUsers_sorted srt _)]

/-- From a store whose pointers all refer to slots, `UpdateRating` returns. -/
theorem UpdateRating_isSome (srt : SliceSorter) (s : LeaderboardService) (id r : Int)
    (h : RefsValid s) : (UpdateRating srt s id r).isSome = true := by
  cases hget : mapGet s.userByID id with
  | none => simp [UpdateRating, hget]
  | some p =>
    have hp := h id p hget
    obtain ⟨u, hu⟩ : ∃ u, s.users.get? p = some u := ⟨_, List.get?_eq_get hp⟩
    have hlen : (srt.run (s.users.set p { u with Rating := r })).length = s.users.length := by
      rw [(srt.perm _).length_eq, List.length_set]
    have hq : ∃ q user,
        mapGet (sortUsers srt { s with users := s.users.set p { u with Rating := r } }).userByID id
          = some q ∧
        (sortUsers srt { s with users := s.users.set p { u with Rating := r } }).users.get? q
          = some user := by
      rw [sortUsers_userByID, sortUsers_users]
      rcases reindexBy_get (fun u => u.ID)
          (srt.run (s.users.set p { u with Rating := r })) 0 s.userByID id
        with ⟨j, v, hj, _, hg⟩ | ⟨_, hg⟩
      · exact ⟨0 + j, v, hg, by simpa using hj⟩
      · refine ⟨p, _, by rw [hg]; exact hget, List.get?_eq_get (by rw [hlen]; exact hp)⟩
    obtain ⟨q, user, hq1, hq2⟩ := hq
    rw [UpdateRating_found_eq srt s id r p q u user hget hu hq1 hq2]
    rfl

/-! ## Decimal numerals -/

theorem digitChar_value (d : Nat) (h : d < 10) : (Nat.digitChar d).toNat - 48 = d := by
  interval_cases d <;> rfl

theorem toDigitsCore_append (fuel : Nat) : ∀ (n : Nat) (ds : List Char),
    Nat.toDigitsCore 10 fuel n ds = Nat.toDigitsCore 10 fuel n [] ++ ds := by
  induction fuel with
  | zero => intro n ds; simp [Nat.toDigitsCore]
  | succ fuel ih =>
    intro n ds
    simp only [Nat.toDigitsCore]
    split
    · simp
    · rw [ih (n / 10) (Nat.digitChar (n % 10) :: ds), ih (n / 10) [Nat.digitChar (n % 10)]]
      simp

theorem digitsValue_append (ds : List Char) (c : Char) :
    digitsValue (ds ++ [c]) = digitsValue ds * 10 + (c.toNat - 48) := by
  simp [digitsValue, List.foldl_append]

theorem digitsValue_toDigitsCore (fuel : Nat) : ∀ n, n < fuel →
    digitsValue (Nat.toDigitsCore 10 fuel n []) = n := by
  induction fuel with
  | zero => intro n h; omega
  | succ fuel ih =>
    intro n h
    simp only [Nat.toDigitsCore]
    split
    · rename_i h0
      have hn : n < 10 := by omega
      have : n % 10 = n := by omega
      rw [this]
      simp [digitsValue, digitChar_value n hn]
    · rename_i h0
      rw [toDigitsCore_append, digitsValue_append, ih (n / 10) (by omega),
        digitChar_value (n % 10) (Nat.mod_lt _ (by omega))]
      omega

theorem Itoa_injective (a b : Nat) (h : Itoa a = Itoa b) : a = b := by
  have h1 : Nat.toDigits 10 a = Nat.toDigits 10 b := by
    have := congrArg String.data h
    simpa [Itoa, Nat.repr, List.asString] using this
  have ha := digitsValue_toDigitsCore (a + 1) a (by omega)
  have hb := digitsValue_toDigitsCore (b + 1) b (by omega)
  unfold Nat.toDigits at h1
  rw [h1] at ha
  omega

theorem tryName_injective (base : String) (j k : Nat) (h : tryName base j = tryName base k) :
    j = k := by
  have hd := congrArg String.data h
  cases j with
  | zero =>
    cases k with
    | zero => rfl
    | succ k =>
      exfalso
      simp only [tryName, String.data_append] at hd
      have := congrArg List.length hd
      simp at this
  | succ j =>
    cases k with
    | zero =>
      exfalso
      simp only [tryName, String.data_append] at hd
      have := congrArg List.length hd
      simp at this
    | succ k =>
      simp only [tryName, String.data_append, List.append_assoc] at hd
      have h3 := List.append_cancel_left (List.append_cancel_left hd)
      have := Itoa_injective _ _ (String.ext h3)
      exact this

/-! ## The uniqueness loop -/

theorem mapGet_some_mem {K V : Type} [DecidableEq K] (m : List (K × V)) (k : K) (v : V)
    (h : mapGet m k = some v) : k ∈ m.map Prod.fst := by
  induction m with
  | nil => simp [mapGet] at h
  | cons e m ih =>
    obtain ⟨k1, v1⟩ := e
    by_cases hk : k = k1
    · simp [hk]
    · simp only [mapGet, hk, if_false] at h
      simp [ih h]

/-- The uniqueness loop, started at try number `t`, stops at the first try
    `k ≥ t` whose name is unused, provided the fuel exceeds the number of names
    that can still be met. -/
theorem uniqueLoop_spec (m : List (String × Nat)) (base : String) :
    ∀ (fuel t : Nat) (L : List String),
      (∀ k, t ≤ k → mapGet m (tryName base k) ≠ none → tryName base k ∈ L) →
      L.length < fuel →
      ∃ k, t ≤ k ∧ k ≤ t + L.length ∧
        uniqueLoop m base fuel (tryName base t) (t + 1) = some (tryName base k, k + 1) ∧
        mapGet m (tryName base k) = none ∧
        ∀ j, t ≤ j → j < k → mapGet m (tryName base j) ≠ none := by
  intro fuel
  induction fuel with
  | zero => intro t L _ h; omega
  | succ fuel ih =>
    intro t L hL hlen
    cases hget : mapGet m (tryName base t) with
    | none =>
      refine ⟨t, le_refl _, by omega, ?_, hget, ?_⟩
      · simp [uniqueLoop, hget]
      · intro j h1 h2; omega
    | some p =>
      have hmem : tryName base t ∈ L := hL t (le_refl _) (by rw [hget]; simp)
      have hlen2 : (L.erase (tryName base t)).length < fuel := by
        rw [List.length_erase_of_mem hmem]
        have := List.length_pos_of_mem hmem
        omega
      obtain ⟨k, hk1, hk2, hk3, hk4, hk5⟩ := ih (t + 1) (L.erase (tryName base t)) (by
        intro k hk hne
        have hne2 : tryName base k ≠ tryName base t := by
          intro e
          have := tryName_injective base k t e
          omega
        exact (List.mem_erase_of_ne hne2).2 (hL k (by omega) hne)) hlen2
      refine ⟨k, by omega, ?_, ?_, hk4, ?_⟩
      · rw [List.length_erase_of_mem hmem] at hk2
        have := List.length_pos_of_mem hmem
        omega
      · simp only [uniqueLoop, hget]
        exact hk3
      · intro j h1 h2
        by_cases hj : j = t
        · subst hj; rw [hget]; simp
        · exact hk5 j (by omega) h2

/-- The uniqueness loop as `SeedUsers` runs it: it returns the first unused
    name among `base`, `base_1`, `base_2`, ... -/
theorem uniqueLoop_returns (m : List (String × Nat)) (base : String) :
    ∃ k, k ≤ m.length ∧
      uniqueLoop m base (m.length + 1) base 1 = some (tryName base k, k + 1) ∧
      mapGet m (tryName base k) = none ∧
      ∀ j, j < k → mapGet m (tryName base j) ≠ none := by
  obtain ⟨k, _, hk2, hk3, hk4, hk5⟩ := uniqueLoop_spec m base (m.length + 1) 0 (m.map Prod.fst)
    (by
      intro k _ hne
      cases hget : mapGet m (tryName base k) with
      | none => exact absurd hget hne
      | some p => exact mapGet_some_mem m _ p hget)
    (by simp)
  refine ⟨k, by simpa using hk2, hk3, hk4, fun j hj => hk5 j (Nat.zero_le _) hj⟩

theorem candidateName_isSome (d : Draw) : ∃ name, candidateName d = some name := by
  have h1 : ∀ raw : Nat, ∃ x, firstNames.get? ((raw : Int) % (30 : Int)).toNat = some x := by
    intro raw
    have : ((raw : Int) % (30 : Int)).toNat < firstNames.length := by
      have : firstNames.length = 30 := by decide
      omega
    exact ⟨_, List.get?_eq_get this⟩
  have h2 : ∀ raw : Nat, ∃ x, lastNames.get? ((raw : Int) % (30 : Int)).toNat = some x := by
    intro raw
    have : ((raw : Int) % (30 : Int)).toNat < lastNames.length := by
      have : lastNames.length = 30 := by decide
      omega
    exact ⟨_, List.get?_eq_get this⟩
  obtain ⟨x, hx⟩ := h1 d.first
  obtain ⟨y, hy⟩ := h2 d.last
  have hf : (firstNames.length : Int) = 30 := by decide
  have hl : (lastNames.length : Int) = 30 := by decide
  simp only [candidateName, Intn, hf, hl]
  rw [List.get?_eq_getElem?] at hx hy
  simp [hx, hy]

/-! ## SeedUsers -/

theorem wrapInt_of_inRange (x : Int) (h1 : -(2 ^ 63) ≤ x) (h2 : x < 2 ^ 63) : wrapInt x = x := by
  unfold wrapInt
  omega

theorem seedRange_pos (lo hi : Int) (h1 : lo ≤ hi) (h2 : hi - lo < 2 ^ 63 - 1) :
    0 < wrapInt (wrapInt (hi - lo) + 1) := by
  rw [wrapInt_of_inRange (hi - lo) (by omega) (by omega),
    wrapInt_of_inRange (hi - lo + 1) (by omega) (by omega)]
  omega

/-- What one iteration of the seeding loop does when it completes. -/
theorem seedUser_cases (s s1 : LeaderboardService) (i lo hi : Int) (d : Draw)
    (h : seedUser s i lo hi d = some s1) :
    ∃ base k off, candidateName d = some base ∧ k ≤ s.userByName.length ∧
      mapGet s.userByName (tryName base k) = none ∧
      (∀ j, j < k → mapGet s.userByName (tryName base j) ≠ none) ∧
      Intn d.rating (wrapInt (wrapInt (hi - lo) + 1)) = some off ∧
      s1 = { users := s.users ++ [⟨i, tryName base k, wrapInt (lo + off)⟩],
             userByID := mapSet s.userByID i s.users.length,
             userByName := mapSet s.userByName (tryName base k) s.users.length } := by
  unfold seedUser at h
  cases hc : candidateName d with
  | none => rw [hc] at h; simp at h
  | some base =>
    rw [hc] at h
    obtain ⟨k, hk1, hk2, hk3, hk4⟩ := uniqueLoop_returns s.userByName base
    simp only [hk2] at h
    cases hoff : Intn d.rating (wrapInt (wrapInt (hi - lo) + 1)) with
    | none => rw [hoff] at h; simp at h
    | some off =>
      rw [hoff] at h
      simp only [Option.some.injEq] at h
      refine ⟨base, k, off, rfl, hk1, hk3, hk4, rfl, ?_⟩
      rw [← h]
      simp

theorem seedUser_isSome (s : LeaderboardService) (i lo hi : Int) (d : Draw)
    (hrange : 0 < wrapInt (wrapInt (hi - lo) + 1)) :
    ∃ s1, seedUser s i lo hi d = some s1 := by
  obtain ⟨base, hbase⟩ := candidateName_isSome d
  obtain ⟨k, _, hk2, _, _⟩ := uniqueLoop_returns s.userByName base
  have hn : ¬ wrapInt (wrapInt (hi - lo) + 1) ≤ 0 := by omega
  simp [seedUser, hbase, hk2, Intn, hn]

/-- A property kept by every iteration is kept by the seeding loop. -/
theorem seedLoop_invariant (P : LeaderboardService → Prop) (rnd : Nat → Draw) (n lo hi : Int)
    (hstep : ∀ s i d s1, P s → seedUser s i lo hi d = some s1 → P s1) :
    ∀ (fuel : Nat) (i : Int) (s s1 : LeaderboardService),
      P s → seedLoop rnd n lo hi fuel i s = some s1 → P s1 := by
  intro fuel
  induction fuel with
  | zero =>
    intro i s s1 hP h
    simp only [seedLoop] at h
    split at h
    · simp at h
    · simp only [Option.some.injEq] at h
      rw [← h]; exact hP
  | succ fuel ih =>
    intro i s s1 hP h
    simp only [seedLoop] at h
    split at h
    · cases hu : seedUser s i lo hi (rnd i.toNat) with
      | none => rw [hu] at h; simp at h
      | some s2 =>
        rw [hu] at h
        exact ih (i + 1) s2 s1 (hstep s i _ s2 hP hu) h
    · simp only [Option.some.injEq] at h
      rw [← h]; exact hP

/-- With a positive rating range the seeding loop completes, adding one user
    per remaining value of the loop counter. -/
theorem seedLoop_isSome (rnd : Nat → Draw) (n lo hi : Int)
    (hrange : 0 < wrapInt (wrapInt (hi - lo) + 1)) :
    ∀ (fuel : Nat) (i : Int) (s : LeaderboardService), (n + 1 - i).toNat ≤ fuel →
      ∃ s1, seedLoop rnd n lo hi fuel i s = some s1 ∧
        s1.users.length = s.users.length + (n + 1 - i).toNat := by
  intro fuel
  induction fuel with
  | zero =>
    intro i s hf
    have : ¬ i ≤ n := by omega
    refine ⟨s, by simp [seedLoop, this], by omega⟩
  | succ fuel ih =>
    intro i s hf
    by_cases hin : i ≤ n
    · obtain ⟨s2, hs2⟩ := seedUser_isSome s i lo hi (rnd i.toNat) hrange
      obtain ⟨s1, hs1, hlen⟩ := ih (i + 1) s2 (by omega)
      refine ⟨s1, by simp [seedLoop, hin, hs2, hs1], ?_⟩
      obtain ⟨base, k, off, _, _, _, _, _, hs2eq⟩ := seedUser_cases s s2 i lo hi _ hs2
      rw [hlen, hs2eq]
      simp
      omega
    · refine ⟨s, by simp [seedLoop, hin], by omega⟩

theorem keysCovered_seedUser (s s1 : LeaderboardService) (i lo hi : Int) (d : Draw)
    (h : seedUser s i lo hi d = some s1)
    (hP : KeysCovered (fun u => u.ID) s.users s.userByID ∧
          KeysCovered (fun u => u.Username) s.users s.userByName) :
    KeysCovered (fun u => u.ID) s1.users s1.userByID ∧
    KeysCovered (fun u => u.Username) s1.users s1.userByName := by
  obtain ⟨base, k, off, _, _, _, _, _, rfl⟩ := seedUser_cases s s1 i lo hi d h
  constructor
  · intro key p hp
    simp only [mapGet_mapSet] at hp
    by_cases hk : key = i
    · exact ⟨⟨i, tryName base k, wrapInt (lo + off)⟩, by simp, hk.symm⟩
    · simp only [hk, if_false] at hp
      obtain ⟨u, hu, huk⟩ := hP.1 key p hp
      exact ⟨u, by simp [hu], huk⟩
  · intro key p hp
    simp only [mapGet_mapSet] at hp
    by_cases hk : key = tryName base k
    · exact ⟨⟨i, tryName base k, wrapInt (lo + off)⟩, by simp, hk.symm⟩
    · simp only [hk, if_false] at hp
      obtain ⟨u, hu, huk⟩ := hP.2 key p hp
      exact ⟨u, by simp [hu], huk⟩

/-- The shape of a completed `SeedUsers`: the loop ran from the empty store and
    `sortUsers` finished the job. -/
theorem SeedUsers_cases (srt : SliceSorter) (rnd : Nat → Draw) (s : LeaderboardService)
    (n lo hi k : Int) (s1 : LeaderboardService)
    (h : SeedUsers srt rnd s n lo hi = some (k, s1)) :
    0 ≤ n ∧ ∃ s0, seedLoop rnd n lo hi n.toNat 1 NewLeaderboardService = some s0 ∧
      s1 = sortUsers srt s0 ∧ k = (s1.users.length : Int) := by
  unfold SeedUsers at h
  split at h
  · simp at h
  · rename_i hn
    cases hl : seedLoop rnd n lo hi n.toNat 1 NewLeaderboardService with
    | none => rw [hl] at h; simp at h
    | some s0 =>
      rw [hl] at h
      simp only [Option.some.injEq, Prod.mk.injEq] at h
      refine ⟨by omega, s0, rfl, h.2.symm, ?_⟩
      rw [← h.1, ← h.2]

/-- A returning `SeedUsers` was asked for a capacity `make` grants. -/
theorem SeedUsers_cap (srt : SliceSorter) (rnd : Nat → Draw) (s : LeaderboardService)
    (n lo hi k : Int) (s1 : LeaderboardService)
    (h : SeedUsers srt rnd s n lo hi = some (k, s1)) :
    0 ≤ n ∧ userSize * n ≤ maxAlloc := by
  unfold SeedUsers at h
  split at h
  · simp at h
  · rename_i hn
    omega

/-- Past the capacity `make` grants, `SeedUsers` panics. -/
theorem SeedUsers_over_cap (srt : SliceSorter) (rnd : Nat → Draw) (s : LeaderboardService)
    (n lo hi : Int) (h : userSize * n > maxAlloc) : SeedUsers srt rnd s n lo hi = none := by
  simp [SeedUsers, h]

theorem SeedUsers_isSome (srt : SliceSorter) (rnd : Nat → Draw) (s : LeaderboardService)
    (n lo hi : Int) (hn : 0 ≤ n) (hcap : userSize * n ≤ maxAlloc)
    (hrange : 0 < wrapInt (wrapInt (hi - lo) + 1)) :
    ∃ s1, SeedUsers srt rnd s n lo hi = some (n, s1) := by
  obtain ⟨s0, hs0, hlen⟩ := seedLoop_isSome rnd n lo hi hrange n.toNat 1 NewLeaderboardService
    (by omega)
  have hn2 : ¬ (n < 0 ∨ userSize * n > maxAlloc) := by omega
  refine ⟨sortUsers srt s0, ?_⟩
  simp only [SeedUsers, hn2, if_false, hs0]
  rw [sortUsers_users, (srt.perm _).length_eq, hlen]
  simp [NewLeaderboardService]
  omega

theorem SeedUsers_indexConsistent (srt : SliceSorter) (rnd : Nat → Draw)
    (s : LeaderboardService) (n lo hi k : Int) (s1 : LeaderboardService)
    (h : SeedUsers srt rnd s n lo hi = some (k, s1)) : IndexConsistent s1 := by
  obtain ⟨_, s0, hs0, rfl, _⟩ := SeedUsers_cases srt rnd s n lo hi k s1 h
  have hcov := seedLoop_invariant
    (fun t => KeysCovered (fun u => u.ID) t.users t.userByID ∧
              KeysCovered (fun u => u.Username) t.users t.userByName) rnd n lo hi
    (fun t i d t1 hP ht => keysCovered_seedUser t t1 i lo hi d ht hP)
    n.toNat 1 NewLeaderboardService s0
    ⟨by intro k p hp; simp [NewLeaderboardService, mapGet] at hp,
     by intro k p hp; simp [NewLeaderboardService, mapGet] at hp⟩ hs0
  exact sortUsers_indexConsistent srt s0 hcov.1 hcov.2

/-- C1: in a store whose sequence is sorted by rating descending, the boundary
    search of `getTieAwareRankUnlocked` and of `GetTieAwareRank` returns, for
    every integer rating `r`, exactly 1 + the number of users whose rating is
    strictly greater than `r`. -/
theorem C1_rank_counts_strictly_higher (s : LeaderboardService) (r : Int)
    (h : SortedDesc s.users) :
    getTieAwareRankUnlocked s r = some (1 + (higherCount s.users r : Int)) ∧
    GetTieAwareRank s r = some (1 + (higherCount s.users r : Int)) := by
  refine ⟨rank_sorted s r h, ?_⟩
  simp [GetTieAwareRank, Search_sorted _ _ h, add_comm]

/-- C1 at the example store and the rating 500, which two users share. -/
theorem C1_rank_counts_strictly_higher_witness :
    SortedDesc exampleStore.users ∧
    (getTieAwareRankUnlocked exampleStore 500
        = some (1 + (higherCount exampleStore.users 500 : Int)) ∧
     GetTieAwareRank exampleStore 500
        = some (1 + (higherCount exampleStore.users 500 : Int))) :=
  ⟨by decide, C1_rank_counts_strictly_higher exampleStore 500 (by decide)⟩

/-- C2: in a store whose sequence is sorted by rating descending, the ranks
    computed for two users A and B of the sequence satisfy: a strictly higher
    rating gives a strictly smaller rank, and equal ratings give equal ranks. -/
theorem C2_rank_monotone (s : LeaderboardService) (A B : User)
    (h : SortedDesc s.users) (hA : A ∈ s.users) (_hB : B ∈ s.users) :
    ∃ ra rb, getTieAwareRankUnlocked s A.Rating = some ra ∧
      getTieAwareRankUnlocked s B.Rating = some rb ∧
      (A.Rating > B.Rating → ra < rb) ∧ (A.Rating = B.Rating → ra = rb) := by
  refine ⟨_, _, rank_sorted s A.Rating h, rank_sorted s B.Rating h, ?_, ?_⟩
  · intro hgt
    have := higherCount_lt s.users A.Rating B.Rating hgt ⟨A, hA, rfl⟩
    omega
  · intro heq
    rw [heq]

/-- C2 at the example store, for the 900 user and one of the 500 users. -/
theorem C2_rank_monotone_witness :
    SortedDesc exampleStore.users ∧
    (⟨4, "neha", 900⟩ : User) ∈ exampleStore.users ∧
    (⟨1, "rahul", 500⟩ : User) ∈ exampleStore.users ∧
    ∃ ra rb, getTieAwareRankUnlocked exampleStore 900 = some ra ∧
      getTieAwareRankUnlocked exampleStore 500 = some rb ∧
      ((900 : Int) > 500 → ra < rb) ∧ ((900 : Int) = 500 → ra = rb) :=
  ⟨by decide, by decide, by decide,
   C2_rank_monotone exampleStore ⟨4, "neha", 900⟩ ⟨1, "rahul", 500⟩
     (by decide) (by decide) (by decide)⟩

/-! ## Invariants of the reachable states -/

theorem indexConsistent_new : IndexConsistent NewLeaderboardService := by
  refine ⟨⟨?_, ?_⟩, ⟨?_, ?_⟩⟩ <;> simp [NewLeaderboardService, mapGet]

theorem UpdateRating_sorted (srt : SliceSorter) (s : LeaderboardService) (id r : Int)
    (out : Option SearchResult × Bool) (s1 : LeaderboardService) (hs : SortedDesc s.users)
    (h : UpdateRating srt s id r = some (out, s1)) : SortedDesc s1.users := by
  rcases UpdateRating_cases srt s id r out s1 h with ⟨_, _, rfl⟩ | ⟨p, u, _, _, rfl, _⟩
  · exact hs
  · exact sortUsers_sorted srt _

theorem UpdateRating_indexConsistent (srt : SliceSorter) (s : LeaderboardService) (id r : Int)
    (out : Option SearchResult × Bool) (s1 : LeaderboardService) (hs : IndexConsistent s)
    (h : UpdateRating srt s id r = some (out, s1)) : IndexConsistent s1 := by
  rcases UpdateRating_cases srt s id r out s1 h with ⟨_, _, rfl⟩ | ⟨p, u, _, hu, rfl, _⟩
  · exact hs
  · exact updated_indexConsistent srt s p u r hu hs

theorem reachable_invariant (srt : SliceSorter) (s : LeaderboardService)
    (h : Reachable srt s) : SortedDesc s.users ∧ IndexConsistent s := by
  induction h with
  | new => exact ⟨List.Pairwise.nil, indexConsistent_new⟩
  | seed rnd s n lo hi k s1 _ hseed _ =>
    obtain ⟨_, s0, _, rfl, _⟩ := SeedUsers_cases srt rnd s n lo hi k s1 hseed
    exact ⟨sortUsers_sorted srt s0, SeedUsers_indexConsistent srt rnd s n lo hi k _ hseed⟩
  | update s id r out s1 _ hupd ih =>
    exact ⟨UpdateRating_sorted srt s id r out s1 ih.1 hupd,
           UpdateRating_indexConsistent srt s id r out s1 ih.2 hupd⟩

/-- C3: the user sequence is sorted by rating descending in every reachable
    state.  It is sorted in the new store; `SeedUsers`, from any state, leaves
    it sorted whenever it returns, and it does return for `n ≥ 0` within the
    capacity `make` grants and a rating range that fits the machine integer;
    `UpdateRating`, found or not, keeps it sorted, and returns whenever the
    pointers of the ID index are valid. -/
theorem C3_sequence_sorted_invariant (srt : SliceSorter) :
    SortedDesc NewLeaderboardService.users ∧
    (∀ (rnd : Nat → Draw) (s : LeaderboardService) (n lo hi k : Int) (s1 : LeaderboardService),
      SeedUsers srt rnd s n lo hi = some (k, s1) → SortedDesc s1.users) ∧
    (∀ (rnd : Nat → Draw) (s : LeaderboardService) (n lo hi : Int),
      0 ≤ n → userSize * n ≤ maxAlloc → lo ≤ hi → hi - lo < 2 ^ 63 - 1 →
      ∃ s1, SeedUsers srt rnd s n lo hi = some (n, s1) ∧ SortedDesc s1.users) ∧
    (∀ (s : LeaderboardService) (id r : Int) (out : Option SearchResult × Bool)
      (s1 : LeaderboardService),
      SortedDesc s.users → UpdateRating srt s id r = some (out, s1) → SortedDesc s1.users) ∧
    (∀ (s : LeaderboardService) (id r : Int),
      RefsValid s → (UpdateRating srt s id r).isSome = true) ∧
    (∀ s, Reachable srt s → SortedDesc s.users) := by
  refine ⟨List.Pairwise.nil, ?_, ?_, ?_, ?_, ?_⟩
  · intro rnd s n lo hi k s1 h
    obtain ⟨_, s0, _, rfl, _⟩ := SeedUsers_cases srt rnd s n lo hi k s1 h
    exact sortUsers_sorted srt s0
  · intro rnd s n lo hi hn hcap h1 h2
    obtain ⟨s1, hs1⟩ := SeedUsers_isSome srt rnd s n lo hi hn hcap (seedRange_pos lo hi h1 h2)
    obtain ⟨_, s0, _, rfl, _⟩ := SeedUsers_cases srt rnd s n lo hi n s1 hs1
    exact ⟨_, hs1, sortUsers_sorted srt s0⟩
  · intro s id r out s1 hs h
    exact UpdateRating_sorted srt s id r out s1 hs h
  · intro s id r h
    exact UpdateRating_isSome srt s id r h
  · intro s h
    exact (reachable_invariant srt s h).1

/-- C3 on the example data: seeding yields the sorted example store, and
    updating the 300 user to 1000 yields a sorted store again. -/
theorem C3_sequence_sorted_invariant_witness :
    SeedUsers insertionSorter exampleRnd NewLeaderboardService 5 100 900
      = some (5, exampleStore) ∧
    SortedDesc exampleStore.users ∧
    UpdateRating insertionSorter exampleStore 3 1000
      = some ((some ⟨1, "amit", 1000, 3⟩, true), exampleUpdated) ∧
    SortedDesc exampleUpdated.users :=
  ⟨by decide,
   (C3_sequence_sorted_invariant insertionSorter).2.1 exampleRnd NewLeaderboardService
     5 100 900 5 exampleStore (by decide),
   by decide,
   (C3_sequence_sorted_invariant insertionSorter).2.2.2.1 exampleStore 3 1000
     (some ⟨1, "amit", 1000, 3⟩, true) exampleUpdated (by decide) (by decide)⟩

/-- C4: index consistency holds in every reachable state (the new store, and
    every store a returning `SeedUsers` or `UpdateRating` leaves): the keys of
    the ID index are exactly the ids of the users in the sequence and each
    pointer leads to a user of the sequence with that id; likewise for the
    username index and usernames.  No binding is stale after the re-sort. -/
theorem C4_index_consistency_invariant (srt : SliceSorter) (s : LeaderboardService)
    (h : Reachable srt s) :
    ((∀ id, (∃ p, mapGet s.userByID id = some p) ↔ ∃ u ∈ s.users, u.ID = id) ∧
     (∀ id p, mapGet s.userByID id = some p → ∃ u, deref s p = some u ∧ u.ID = id)) ∧
    ((∀ name, (∃ p, mapGet s.userByName name = some p) ↔ ∃ u ∈ s.users, u.Username = name) ∧
     (∀ name p, mapGet s.userByName name = some p →
        ∃ u, deref s p = some u ∧ u.Username = name)) :=
  (reachable_invariant srt s h).2

/-- C4 at a store reached by seeding five users and updating one of them. -/
theorem C4_index_consistency_invariant_witness :
    Reachable insertionSorter exampleUpdated ∧
    (((∀ id, (∃ p, mapGet exampleUpdated.userByID id = some p) ↔
          ∃ u ∈ exampleUpdated.users, u.ID = id) ∧
      (∀ id p, mapGet exampleUpdated.userByID id = some p →
          ∃ u, deref exampleUpdated p = some u ∧ u.ID = id)) ∧
     ((∀ name, (∃ p, mapGet exampleUpdated.userByName name = some p) ↔
          ∃ u ∈ exampleUpdated.users, u.Username = name) ∧
      (∀ name p, mapGet exampleUpdated.userByName name = some p →
          ∃ u, deref exampleUpdated p = some u ∧ u.Username = name))) :=
  have hr : Reachable insertionSorter exampleUpdated :=
    Reachable.update exampleStore 3 1000 (some ⟨1, "amit", 1000, 3⟩, true) exampleUpdated
      (Reachable.seed exampleRnd NewLeaderboardService 5 100 900 5 exampleStore
        Reachable.new (by decide))
      (by decide)
  ⟨hr, C4_index_consistency_invariant insertionSorter exampleUpdated hr⟩

/-- C6: when the id is not a key of the ID index, `UpdateRating` returns no
    result with found=false and the store (sequence and both indexes) is left
    exactly as it was. -/
theorem C6_update_absent_id (srt : SliceSorter) (s : LeaderboardService) (id r : Int)
    (h : mapGet s.userByID id = none) :
    UpdateRating srt s id r = some ((none, false), s) := by
  simp [UpdateRating, h]

/-- C6 at the example store and the id 999. -/
theorem C6_update_absent_id_witness :
    mapGet exampleStore.userByID 999 = none ∧
    UpdateRating insertionSorter exampleStore 999 1234 = some ((none, false), exampleStore) :=
  ⟨by decide, C6_update_absent_id insertionSorter exampleStore 999 1234 (by decide)⟩

/-! ## UpdateRating on a consistent store -/

theorem eq_of_nodup_map_ID (l : List User) (h : (l.map (fun u => u.ID)).Nodup) (a b : User)
    (ha : a ∈ l) (hb : b ∈ l) (hab : a.ID = b.ID) : a = b :=
  List.inj_on_of_nodup_map h ha hb hab

/-- On a consistent store holding the id, `UpdateRating` replaces the rating of
    the one user with that id, re-sorts, and reports that user. -/
theorem UpdateRating_consistent (srt : SliceSorter) (s : LeaderboardService) (id r : Int)
    (hc : Consistent s) (hid : ∃ u ∈ s.users, u.ID = id) :
    ∃ p u, mapGet s.userByID id = some p ∧ s.users.get? p = some u ∧ u.ID = id ∧
      UpdateRating srt s id r =
        some ((some { GlobalRank := 1 + (higherCount
                        (sortUsers srt { s with users := s.users.set p { u with Rating := r } }).users
                        r : Int),
                      Username := u.Username, Rating := r, ID := id }, true),
              sortUsers srt { s with users := s.users.set p { u with Rating := r } }) ∧
      GetUserByID (sortUsers srt { s with users := s.users.set p { u with Rating := r } }) id =
        some (some { GlobalRank := 1 + (higherCount
                        (sortUsers srt { s with users := s.users.set p { u with Rating := r } }).users
                        r : Int),
                      Username := u.Username, Rating := r, ID := id }, true) := by
  obtain ⟨hsorted, hnodup, hidx⟩ := hc
  obtain ⟨p, hp⟩ := (hidx.1.1 id).2 hid
  obtain ⟨u, hu, huid⟩ := hidx.1.2 id p hp
  have huid : u.ID = id := huid
  have hplt : p < s.users.length := (List.get?_eq_some.1 hu).1
  have hidx2 := updated_indexConsistent srt s p u r hu hidx
  -- the updated user is in the new sequence
  have hmem1 : ({ u with Rating := r } : User) ∈ s.users.set p { u with Rating := r } :=
    List.mem_iff_get?.2 ⟨p, by simp [List.get?_eq_getElem?, List.getElem?_set, hplt]⟩
  have hmem2 : ({ u with Rating := r } : User) ∈
      (sortUsers srt { s with users := s.users.set p { u with Rating := r } }).users := by
    rw [sortUsers_users]
    exact (srt.perm _).symm.subset hmem1
  have hnodup2 : ((sortUsers srt { s with users := s.users.set p { u with Rating := r } }).users.map
      (fun u => u.ID)).Nodup := by
    rw [sortUsers_users]
    have h1 : ((s.users.set p { u with Rating := r }).map (fun u => u.ID)).Nodup := by
      have e := map_set_same (fun u => u.ID) { u with Rating := r } s.users p u hu rfl
      rw [e]
      exact hnodup
    exact (((srt.perm _).map _).nodup_iff).2 h1
  obtain ⟨q, hq⟩ := (hidx2.1.1 id).2 ⟨_, hmem2, huid⟩
  obtain ⟨user, huser, huserid⟩ := hidx2.1.2 id q hq
  have huserid : user.ID = id := huserid
  have heq : user = { u with Rating := r } :=
    eq_of_nodup_map_ID _ hnodup2 _ _ (List.get?_mem huser) hmem2 (huserid.trans huid.symm)
  subst heq
  refine ⟨p, u, hp, hu, huid, ?_, ?_⟩
  · rw [UpdateRating_found_eq srt s id r p q u _ hp hu hq huser]
    simp [huid]
  · simp only [GetUserByID, hq, deref, huser, rank_sorted _ _ (sortUsers_sorted srt _)]
    simp [huid]

theorem exampleStore_consistent : Consistent exampleStore :=
  ⟨by decide, by decide,
   (reachable_invariant insertionSorter exampleStore
     (Reachable.seed exampleRnd NewLeaderboardService 5 100 900 5 exampleStore
       Reachable.new (by decide))).2⟩

/-- C5: on a consistent store (sorted, unique ids, consistent indexes) and for
    an id present in it, `UpdateRating(id, r)` returns found=true with a result
    for that id whose rating is `r` and whose rank is 1 + the number of users
    rated strictly above `r` in the store after the update; `GetUserByID(id)`
    on that store returns the same result. -/
theorem C5_update_consistency (srt : SliceSorter) (s : LeaderboardService) (id r : Int)
    (hc : Consistent s) (hid : ∃ u ∈ s.users, u.ID = id) :
    ∃ res s1, UpdateRating srt s id r = some ((some res, true), s1) ∧
      res.ID = id ∧ res.Rating = r ∧
      res.GlobalRank = 1 + (higherCount s1.users r : Int) ∧
      GetUserByID s1 id = some (some res, true) := by
  obtain ⟨p, u, _, _, _, hupd, hget⟩ := UpdateRating_consistent srt s id r hc hid
  exact ⟨_, _, hupd, rfl, rfl, rfl, hget⟩

/-- C5 on ratings `[900, 500, 500, 300, 100]`: updating the 300 user (id 3) to
    1000 gives that user rank 1, and the 900 user (id 4) then has rank 2. -/
theorem C5_update_consistency_witness :
    Consistent exampleStore ∧ (∃ u ∈ exampleStore.users, u.ID = 3) ∧
    (∃ res s1, UpdateRating insertionSorter exampleStore 3 1000 = some ((some res, true), s1) ∧
      res.ID = 3 ∧ res.Rating = 1000 ∧
      res.GlobalRank = 1 + (higherCount s1.users 1000 : Int) ∧
      GetUserByID s1 3 = some (some res, true)) ∧
    UpdateRating insertionSorter exampleStore 3 1000
      = some ((some ⟨1, "amit", 1000, 3⟩, true), exampleUpdated) ∧
    GetUserByID exampleUpdated 4 = some (some ⟨2, "neha", 900, 4⟩, true) ∧
    GetTotalUsers exampleUpdated = 5 :=
  ⟨exampleStore_consistent, by decide,
   C5_update_consistency insertionSorter exampleStore 3 1000 exampleStore_consistent (by decide),
   by decide, by decide, by decide⟩

theorem mem_set_of_ne (l : List User) (p : Nat) (x v : User)
    (hv : ∃ j, j ≠ p ∧ l.get? j = some v) : v ∈ l.set p x := by
  obtain ⟨j, hj, hg⟩ := hv
  refine List.mem_iff_get?.2 ⟨j, ?_⟩
  rw [List.get?_eq_getElem?] at hg ⊢
  rw [List.getElem?_set_ne (Ne.symm hj)]
  exact hg

/-- C7: on a consistent store and for an id present in it, `UpdateRating(id, r)`
    changes nothing but the rating of the target and the order: the new
    sequence is a rearrangement of the old one in which the target slot holds
    the same id and username with rating `r`; the user count is unchanged, the
    target is present with its id and username, and every other user is still
    present unchanged. -/
theorem C7_update_frame (srt : SliceSorter) (s : LeaderboardService) (id r : Int)
    (hc : Consistent s) (hid : ∃ u ∈ s.users, u.ID = id) :
    ∃ out s1 p u, UpdateRating srt s id r = some (out, s1) ∧
      s.users.get? p = some u ∧ u.ID = id ∧
      s1.users.Perm (s.users.set p ⟨u.ID, u.Username, r⟩) ∧
      GetTotalUsers s1 = GetTotalUsers s ∧
      (⟨id, u.Username, r⟩ : User) ∈ s1.users ∧
      (∀ v ∈ s.users, v.ID ≠ id → v ∈ s1.users) := by
  obtain ⟨p, u, _, hu, huid, hupd, _⟩ := UpdateRating_consistent srt s id r hc hid
  have hplt : p < s.users.length := (List.get?_eq_some.1 hu).1
  have hperm : (sortUsers srt { s with users := s.users.set p { u with Rating := r } }).users.Perm
      (s.users.set p ⟨u.ID, u.Username, r⟩) := by
    rw [sortUsers_users]
    exact srt.perm _
  refine ⟨_, _, p, u, hupd, hu, huid, hperm, ?_, ?_, ?_⟩
  · simp only [GetTotalUsers]
    rw [hperm.length_eq, List.length_set]
  · refine hperm.symm.subset ?_
    rw [← huid]
    exact List.mem_iff_get?.2 ⟨p, by simp [List.get?_eq_getElem?, List.getElem?_set, hplt]⟩
  · intro v hv hne
    refine hperm.symm.subset (mem_set_of_ne _ _ _ _ ?_)
    obtain ⟨j, hj⟩ := List.mem_iff_get?.1 hv
    refine ⟨j, ?_, hj⟩
    intro e
    subst e
    rw [hu] at hj
    have : u = v := by simpa using hj
    subst this
    exact hne huid

/-- C7 at the example store, updating the user with id 3 to rating 1000. -/
theorem C7_update_frame_witness :
    Consistent exampleStore ∧ (∃ u ∈ exampleStore.users, u.ID = 3) ∧
    ∃ out s1 p u, UpdateRating insertionSorter exampleStore 3 1000 = some (out, s1) ∧
      exampleStore.users.get? p = some u ∧ u.ID = 3 ∧
      s1.users.Perm (exampleStore.users.set p ⟨u.ID, u.Username, 1000⟩) ∧
      GetTotalUsers s1 = GetTotalUsers exampleStore ∧
      (⟨3, u.Username, 1000⟩ : User) ∈ s1.users ∧
      (∀ v ∈ exampleStore.users, v.ID ≠ 3 → v ∈ s1.users) :=
  ⟨exampleStore_consistent, by decide,
   C7_update_frame insertionSorter exampleStore 3 1000 exampleStore_consistent (by decide)⟩

/-! ## GetLeaderboard -/

/-- On a sorted store the page loop appends the entries of the users in the
    slots `i, i+1, ..., stop-1`; no read leaves the slice. -/
theorem pageLoop_sorted (s : LeaderboardService) (hs : SortedDesc s.users) (stop : Int)
    (hstop : stop ≤ s.users.length) :
    ∀ (fuel : Nat) (i : Nat) (acc : List LeaderboardEntry), (stop - i).toNat ≤ fuel →
      pageLoop s stop fuel i acc =
        some (acc ++ ((s.users.drop i).take (stop - i).toNat).map (entryOf s.users)) := by
  intro fuel
  induction fuel with
  | zero =>
    intro i acc hf
    have h0 : (stop - (i : Int)).toNat = 0 := by omega
    have : ¬ (i : Int) < stop := by omega
    simp [pageLoop, this, h0]
  | succ fuel ih =>
    intro i acc hf
    by_cases hi : (i : Int) < stop
    · have hlt : i < s.users.length := by omega
      have hnn : ¬ (i : Int) < 0 := by omega
      have hget : s.users.get? i = some (s.users.get ⟨i, hlt⟩) := List.get?_eq_get hlt
      have hdrop : s.users.drop i = s.users.get ⟨i, hlt⟩ :: s.users.drop (i + 1) := by
        simp
      have hcnt : (stop - (i : Int)).toNat = (stop - ((i + 1 : Nat) : Int)).toNat + 1 := by
        omega
      have hih := ih (i + 1) (acc ++ [entryOf s.users (s.users.get ⟨i, hlt⟩)]) (by omega)
      simp only [pageLoop, hi, if_true, hnn, if_false, Int.toNat_ofNat, hget,
        rank_sorted s _ hs]
      have hcast : ((i : Int) + 1) = ((i + 1 : Nat) : Int) := by push_cast; rfl
      rw [hcast]
      change pageLoop s stop fuel ((i + 1 : Nat) : Int)
        (acc ++ [entryOf s.users (s.users.get ⟨i, hlt⟩)]) = _
      rw [hih, hdrop, hcnt]
      simp only [List.take_succ_cons, List.map_cons, List.append_assoc, List.singleton_append]
    · have h0 : (stop - (i : Int)).toNat = 0 := by omega
      simp [pageLoop, hi, h0]

theorem GetLeaderboard_sorted (s : LeaderboardService) (limit offset : Int)
    (hs : SortedDesc s.users) (hl : 0 ≤ limit) (ho : 0 ≤ offset)
    (hlt : offset < s.users.length) (hov : offset + limit < 2 ^ 63) :
    GetLeaderboard s limit offset =
      some (((s.users.drop offset.toNat).take limit.toNat).map (entryOf s.users),
            (s.users.length : Int)) := by
  have hw : wrapInt (offset + limit) = offset + limit :=
    wrapInt_of_inRange _ (by omega) hov
  have hnot : ¬ offset ≥ (s.users.length : Int) := by omega
  obtain ⟨o, rfl⟩ := Int.eq_ofNat_of_zero_le ho
  simp only [GetLeaderboard, hnot, if_false, hw]
  by_cases hbig : (o : Int) + limit > s.users.length
  · have hneg : ¬ ((s.users.length : Int) - o < 0) := by omega
    simp only [hbig, if_true, hneg, if_false]
    rw [pageLoop_sorted s hs _ (le_refl _) _ o [] (le_refl _)]
    simp only [List.nil_append, Int.toNat_ofNat]
    have h1 : (s.users.drop o).take ((s.users.length : Int) - o).toNat = s.users.drop o :=
      List.take_of_length_le (by rw [List.length_drop]; omega)
    have h2 : (s.users.drop o).take limit.toNat = s.users.drop o :=
      List.take_of_length_le (by rw [List.length_drop]; omega)
    rw [h1, h2]
  · have hneg : ¬ ((o : Int) + limit - o < 0) := by omega
    simp only [hbig, if_false, hneg]
    rw [pageLoop_sorted s hs _ (by omega) _ o [] (le_refl _)]
    simp only [List.nil_append, Int.toNat_ofNat]
    have : ((o : Int) + limit - o).toNat = limit.toNat := by omega
    rw [this]

/-- C8: on a sorted store, for non-negative `limit` and `offset` with
    `offset < total` and `offset + limit` inside the integer range,
    `GetLeaderboard(limit, offset)` returns (no read leaves the slice) the total
    together with exactly `min(limit, total - offset)` entries, entry `i`
    carrying the id, username and rating of the user in slot `offset + i` and
    the rank 1 + the number of users rated strictly higher. -/
theorem C8_leaderboard_page (s : LeaderboardService) (limit offset : Int)
    (hs : SortedDesc s.users) (hl : 0 ≤ limit) (ho : 0 ≤ offset)
    (hlt : offset < s.users.length) (hov : offset + limit < 2 ^ 63) :
    ∃ entries, GetLeaderboard s limit offset = some (entries, (s.users.length : Int)) ∧
      entries.length = min limit.toNat (s.users.length - offset.toNat) ∧
      ∀ i, i < entries.length →
        ∃ u, s.users.get? (offset.toNat + i) = some u ∧
          entries.get? i = some { Rank := 1 + (higherCount s.users u.Rating : Int),
                                  Username := u.Username, Rating := u.Rating, ID := u.ID } := by
  refine ⟨_, GetLeaderboard_sorted s limit offset hs hl ho hlt hov, ?_, ?_⟩
  · simp [List.length_take, List.length_drop]
  · intro i hi
    simp only [List.length_map, List.length_take, List.length_drop] at hi
    have hi2 : offset.toNat + i < s.users.length := by omega
    refine ⟨s.users.get ⟨offset.toNat + i, hi2⟩, List.get?_eq_get hi2, ?_⟩
    rw [List.get?_eq_getElem?, List.getElem?_map, List.getElem?_take_of_lt (by omega),
      List.getElem?_drop, List.getElem?_eq_getElem hi2]
    rfl

/-- C8 on ratings `[900, 500, 500, 300, 100]`: `limit=2, offset=0` gives two
    entries with ranks 1 and 2 and total 5. -/
theorem C8_leaderboard_page_witness :
    SortedDesc exampleStore.users ∧ (0 : Int) ≤ 2 ∧ (0 : Int) ≤ 0 ∧
    (0 : Int) < exampleStore.users.length ∧ (0 : Int) + 2 < 2 ^ 63 ∧
    (∃ entries, GetLeaderboard exampleStore 2 0
        = some (entries, (exampleStore.users.length : Int)) ∧
      entries.length = min (2 : Int).toNat (exampleStore.users.length - (0 : Int).toNat) ∧
      ∀ i, i < entries.length →
        ∃ u, exampleStore.users.get? ((0 : Int).toNat + i) = some u ∧
          entries.get? i = some { Rank := 1 + (higherCount exampleStore.users u.Rating : Int),
                                  Username := u.Username, Rating := u.Rating, ID := u.ID }) ∧
    GetLeaderboard exampleStore 2 0
      = some ([⟨1, "neha", 900, 4⟩, ⟨2, "rahul", 500, 1⟩], 5) :=
  ⟨by decide, by decide, by decide, by decide, by decide,
   C8_leaderboard_page exampleStore 2 0 (by decide) (by decide) (by decide) (by decide)
     (by decide),
   by decide⟩

/-- C9: when `offset` is at least the number of users, `GetLeaderboard` returns
    an empty entry list and a total equal to the number of users, whatever the
    store and the limit. -/
theorem C9_page_past_the_end (s : LeaderboardService) (limit offset : Int)
    (h : offset ≥ GetTotalUsers s) :
    GetLeaderboard s limit offset = some ([], GetTotalUsers s) := by
  unfold GetTotalUsers at h
  simp [GetLeaderboard, GetTotalUsers, h]

/-- C9 at the empty store with offset 0, and at the example store with
    offset 5. -/
theorem C9_page_past_the_end_witness :
    ((0 : Int) ≥ GetTotalUsers NewLeaderboardService ∧
      GetLeaderboard NewLeaderboardService 10 0 = some ([], GetTotalUsers NewLeaderboardService)) ∧
    GetLeaderboard exampleStore 10 5 = some ([], 5) :=
  ⟨⟨by decide, C9_page_past_the_end NewLeaderboardService 10 0 (by decide)⟩, by decide⟩

/-! ## SearchUsers -/

theorem searchLoopUsers_sorted (lower : Char → Char) (s : LeaderboardService)
    (hs : SortedDesc s.users) (query : String) :
    ∀ (l : List User) (acc : List SearchResult),
      searchLoopUsers lower s query l acc =
        some (acc ++ (l.filter (fun u => Contains (ToLower lower u.Username) query)).map
          (resultOf s.users)) := by
  intro l
  induction l with
  | nil => intro acc; simp [searchLoopUsers]
  | cons u rest ih =>
    intro acc
    by_cases hm : Contains (ToLower lower u.Username) query = true
    · have hf : (u :: rest).filter (fun u => Contains (ToLower lower u.Username) query)
          = u :: rest.filter (fun u => Contains (ToLower lower u.Username) query) := by
        simp [List.filter_cons, hm]
      simp only [searchLoopUsers, hm, if_true, rank_sorted s _ hs]
      change searchLoopUsers lower s query rest (acc ++ [resultOf s.users u]) = _
      rw [ih, hf]
      simp
    · have hf : (u :: rest).filter (fun u => Contains (ToLower lower u.Username) query)
          = rest.filter (fun u => Contains (ToLower lower u.Username) query) := by
        simp [List.filter_cons, hm]
      have hm2 : Contains (ToLower lower u.Username) query = false := by
        simpa using hm
      simp only [searchLoopUsers, hm2]
      rw [ih, hf]
      rfl

theorem sortedDesc_filter (l : List User) (p : User → Bool) (h : SortedDesc l) :
    SortedDesc (l.filter p) :=
  List.Pairwise.sublist (List.filter_sublist l) h

/-- C10: on a sorted store `SearchUsers(q)` returns one result for exactly the
    users whose lowercased username contains the lowercased `q` as a
    contiguous block, each once and in sequence order: the result list is the
    sequence filtered by that test, every kept user turned into its id,
    username, rating and tie-aware rank; so ratings are non-increasing along
    it and its length is the number of matching users. -/
theorem C10_search_results (lower : Char → Char) (s : LeaderboardService) (q : String)
    (hs : SortedDesc s.users) :
    ∃ results, SearchUsers lower s q = some results ∧
      results = (s.users.filter (fun u =>
          decide ((ToLower lower q).data <:+: (ToLower lower u.Username).data))).map
        (fun u => { GlobalRank := 1 + (higherCount s.users u.Rating : Int),
                    Username := u.Username, Rating := u.Rating, ID := u.ID }) ∧
      results.Pairwise (fun a b => b.Rating ≤ a.Rating) ∧
      results.length = s.users.countP (fun u =>
          decide ((ToLower lower q).data <:+: (ToLower lower u.Username).data)) := by
  refine ⟨_, searchLoopUsers_sorted lower s hs _ s.users [], ?_, ?_, ?_⟩
  · rfl
  · simp only [List.nil_append]
    rw [List.pairwise_map]
    exact sortedDesc_filter _ _ hs
  · simp only [List.nil_append, List.length_map, List.countP_eq_length_filter]
    rfl

/-- C10 at the example store: a query no username contains gives the empty
    list, and an upper-case query finds both users named after `rahul`. -/
theorem C10_search_results_witness :
    SortedDesc exampleStore.users ∧
    (∃ results, SearchUsers Char.toLower exampleStore "zzz-no-match" = some results ∧
      results = (exampleStore.users.filter (fun u =>
          decide ((ToLower Char.toLower "zzz-no-match").data
            <:+: (ToLower Char.toLower u.Username).data))).map
        (fun u => { GlobalRank := 1 + (higherCount exampleStore.users u.Rating : Int),
                    Username := u.Username, Rating := u.Rating, ID := u.ID }) ∧
      results.Pairwise (fun a b => b.Rating ≤ a.Rating) ∧
      results.length = exampleStore.users.countP (fun u =>
          decide ((ToLower Char.toLower "zzz-no-match").data
            <:+: (ToLower Char.toLower u.Username).data))) ∧
    SearchUsers Char.toLower exampleStore "zzz-no-match" = some [] ∧
    SearchUsers Char.toLower exampleStore "RAHUL"
      = some [⟨2, "rahul", 500, 1⟩, ⟨2, "rahul_1", 500, 2⟩] :=
  ⟨by decide, C10_search_results Char.toLower exampleStore "zzz-no-match" (by decide),
   by decide, by decide⟩

/-! ## GetUserByID -/

/-- On a consistent store `GetUserByID` reports any user carrying the id. -/
theorem GetUserByID_present (s : LeaderboardService) (id : Int) (hc : Consistent s)
    (u : User) (hu : u ∈ s.users) (huid : u.ID = id) :
    GetUserByID s id = some (some (resultOf s.users u), true) := by
  obtain ⟨hsorted, hnodup, hidx⟩ := hc
  obtain ⟨p, hp⟩ := (hidx.1.1 id).2 ⟨u, hu, huid⟩
  obtain ⟨v, hv, hvid⟩ := hidx.1.2 id p hp
  have hvid : v.ID = id := hvid
  have hvu : v = u :=
    eq_of_nodup_map_ID _ hnodup v u (List.get?_mem hv) hu (hvid.trans huid.symm)
  subst hvu
  simp only [GetUserByID, hp, deref, hv, rank_sorted s _ hsorted]
  rfl

/-- On a store with consistent indexes an id no user carries is not found. -/
theorem GetUserByID_absent (s : LeaderboardService) (id : Int) (hc : Consistent s)
    (hno : ¬ ∃ u ∈ s.users, u.ID = id) : GetUserByID s id = some (none, false) := by
  have hnone : mapGet s.userByID id = none := by
    cases hg : mapGet s.userByID id with
    | none => rfl
    | some p => exact absurd ((hc.2.2.1.1 id).1 ⟨p, hg⟩) hno
  simp [GetUserByID, hnone]

/-- C11: on a consistent store `GetUserByID(id)` returns, with found=true
    exactly when some user of the sequence has that id; when found the result
    carries the id, username and rating of that user and the rank 1 + the
    number of strictly higher ratings, and when not found there is no
    result. -/
theorem C11_get_user_by_id (s : LeaderboardService) (id : Int) (hc : Consistent s) :
    ∃ res found, GetUserByID s id = some (res, found) ∧
      (found = true ↔ ∃ u ∈ s.users, u.ID = id) ∧
      (found = true → ∃ u ∈ s.users, u.ID = id ∧
        res = some { GlobalRank := 1 + (higherCount s.users u.Rating : Int),
                     Username := u.Username, Rating := u.Rating, ID := u.ID }) ∧
      (found = false → res = none) := by
  by_cases h : ∃ u ∈ s.users, u.ID = id
  · obtain ⟨u, hu, huid⟩ := h
    refine ⟨_, _, GetUserByID_present s id hc u hu huid, ?_, ?_, ?_⟩
    · exact ⟨fun _ => ⟨u, hu, huid⟩, fun _ => rfl⟩
    · intro _
      exact ⟨u, hu, huid, rfl⟩
    · intro hf
      cases hf
  · refine ⟨_, _, GetUserByID_absent s id hc h, ?_, ?_, ?_⟩
    · exact ⟨fun hf => (by cases hf), fun hx => absurd hx h⟩
    · intro hf
      cases hf
    · intro _
      rfl

/-- C11 at the example store: id 999 is not found, id 3 is found with rank 4. -/
theorem C11_get_user_by_id_witness :
    Consistent exampleStore ∧
    (∃ res found, GetUserByID exampleStore 999 = some (res, found) ∧
      (found = true ↔ ∃ u ∈ exampleStore.users, u.ID = 999) ∧
      (found = true → ∃ u ∈ exampleStore.users, u.ID = 999 ∧
        res = some { GlobalRank := 1 + (higherCount exampleStore.users u.Rating : Int),
                     Username := u.Username, Rating := u.Rating, ID := u.ID }) ∧
      (found = false → res = none)) ∧
    GetUserByID exampleStore 999 = some (none, false) ∧
    GetUserByID exampleStore 3 = some (some ⟨4, "amit", 300, 3⟩, true) :=
  ⟨exampleStore_consistent, C11_get_user_by_id exampleStore 999 exampleStore_consistent,
   by decide, by decide⟩

/-! ## Top rank -/

/-- C15: in a non-empty store with a rating-descending sequence every user
    whose rating is the maximum has rank 1, and a user with a smaller rating
    (some user is rated strictly higher) has a rank greater than 1. -/
theorem C15_top_rank (s : LeaderboardService) (u : User) (hs : SortedDesc s.users)
    (_hu : u ∈ s.users) :
    ((∀ v ∈ s.users, v.Rating ≤ u.Rating) → getTieAwareRankUnlocked s u.Rating = some 1) ∧
    ((∃ v ∈ s.users, u.Rating < v.Rating) →
      ∃ k, getTieAwareRankUnlocked s u.Rating = some k ∧ 1 < k) := by
  constructor
  · intro hmax
    rw [rank_sorted s _ hs, higherCount_eq_zero _ _ hmax]
    rfl
  · rintro ⟨v, hv, hlt⟩
    refine ⟨_, rank_sorted s _ hs, ?_⟩
    have hpos : 0 < higherCount s.users u.Rating := by
      unfold higherCount
      rw [List.countP_pos_iff]
      exact ⟨v, hv, by simpa using hlt⟩
    omega

/-- C15 at the example store: the 900 user has rank 1, a 500 user has not. -/
theorem C15_top_rank_witness :
    SortedDesc exampleStore.users ∧ (⟨4, "neha", 900⟩ : User) ∈ exampleStore.users ∧
    (((∀ v ∈ exampleStore.users, v.Rating ≤ 900) →
        getTieAwareRankUnlocked exampleStore 900 = some 1) ∧
     ((∃ v ∈ exampleStore.users, (900 : Int) < v.Rating) →
        ∃ k, getTieAwareRankUnlocked exampleStore 900 = some k ∧ 1 < k)) ∧
    getTieAwareRankUnlocked exampleStore 900 = some 1 ∧
    getTieAwareRankUnlocked exampleStore 500 = some 2 :=
  ⟨by decide, by decide, C15_top_rank exampleStore ⟨4, "neha", 900⟩ (by decide) (by decide),
   by decide, by decide⟩

/-! ## What SeedUsers creates -/

theorem seedUser_names (s s1 : LeaderboardService) (i lo hi : Int) (d : Draw)
    (h : seedUser s i lo hi d = some s1)
    (hP : (∀ u ∈ s.users, ∃ p, mapGet s.userByName u.Username = some p) ∧
          (s.users.map (fun u => u.Username)).Nodup) :
    (∀ u ∈ s1.users, ∃ p, mapGet s1.userByName u.Username = some p) ∧
    (s1.users.map (fun u => u.Username)).Nodup := by
  obtain ⟨base, k, off, _, _, hfree, _, _, rfl⟩ := seedUser_cases s s1 i lo hi d h
  constructor
  · intro u hu
    simp only [mapGet_mapSet]
    by_cases hk : u.Username = tryName base k
    · exact ⟨s.users.length, by simp [hk]⟩
    · simp only [hk, if_false]
      rcases List.mem_append.1 hu with hu | hu
      · exact hP.1 u hu
      · simp at hu
        subst hu
        exact absurd rfl hk
  · simp only [List.map_append, List.map_cons, List.map_nil]
    rw [List.nodup_append]
    refine ⟨hP.2, by simp, ?_⟩
    intro a ha hb
    simp at hb
    subst hb
    obtain ⟨u, hu, hua⟩ := List.mem_map.1 ha
    obtain ⟨p, hp⟩ := hP.1 u hu
    have hua : u.Username = tryName base k := hua
    rw [hua, hfree] at hp
    cases hp

theorem SeedUsers_names_nodup (srt : SliceSorter) (rnd : Nat → Draw) (s : LeaderboardService)
    (n lo hi k : Int) (s1 : LeaderboardService)
    (h : SeedUsers srt rnd s n lo hi = some (k, s1)) :
    (s1.users.map (fun u => u.Username)).Nodup := by
  obtain ⟨_, s0, hs0, rfl, _⟩ := SeedUsers_cases srt rnd s n lo hi k s1 h
  have hinv := seedLoop_invariant
    (fun t => (∀ u ∈ t.users, ∃ p, mapGet t.userByName u.Username = some p) ∧
              (t.users.map (fun u => u.Username)).Nodup) rnd n lo hi
    (fun t i d t1 hP ht => seedUser_names t t1 i lo hi d ht hP)
    n.toNat 1 NewLeaderboardService s0
    ⟨by intro u hu; simp [NewLeaderboardService] at hu, by simp [NewLeaderboardService]⟩ hs0
  rw [sortUsers_users]
  exact (((srt.perm _).map _).nodup_iff).2 hinv.2

theorem UpdateRating_names (srt : SliceSorter) (s : LeaderboardService) (id r : Int)
    (out : Option SearchResult × Bool) (s1 : LeaderboardService)
    (h : UpdateRating srt s id r = some (out, s1)) :
    (s1.users.map (fun u => u.Username)).Perm (s.users.map (fun u => u.Username)) := by
  rcases UpdateRating_cases srt s id r out s1 h with ⟨_, _, rfl⟩ | ⟨p, u, _, hu, rfl, _⟩
  · exact List.Perm.refl _
  · rw [sortUsers_users]
    have e := map_set_same (fun u => u.Username) { u with Rating := r } s.users p u hu rfl
    rw [← e]
    exact (srt.perm _).map _

theorem reachable_names_nodup (srt : SliceSorter) (s : LeaderboardService)
    (h : Reachable srt s) : (s.users.map (fun u => u.Username)).Nodup := by
  induction h with
  | new => simp [NewLeaderboardService]
  | seed rnd s n lo hi k s1 _ hseed _ => exact SeedUsers_names_nodup srt rnd s n lo hi k s1 hseed
  | update s id r out s1 _ hupd ih =>
    exact ((UpdateRating_names srt s id r out s1 hupd).nodup_iff).2 ih

/-- C13: after a returning `SeedUsers`, from any store, for any `n`, any rating
    bounds and any outcome of the random source, the usernames in the store
    are pairwise distinct; `UpdateRating` leaves the collection of usernames as
    it was; so usernames are pairwise distinct in every reachable state. -/
theorem C13_usernames_distinct (srt : SliceSorter) :
    (∀ (rnd : Nat → Draw) (s : LeaderboardService) (n lo hi k : Int) (s1 : LeaderboardService),
      SeedUsers srt rnd s n lo hi = some (k, s1) →
      (s1.users.map (fun u => u.Username)).Nodup) ∧
    (∀ (s : LeaderboardService) (id r : Int) (out : Option SearchResult × Bool)
      (s1 : LeaderboardService), UpdateRating srt s id r = some (out, s1) →
      (s1.users.map (fun u => u.Username)).Perm (s.users.map (fun u => u.Username))) ∧
    (∀ s, Reachable srt s → (s.users.map (fun u => u.Username)).Nodup) :=
  ⟨fun rnd s n lo hi k s1 h => SeedUsers_names_nodup srt rnd s n lo hi k s1 h,
   fun s id r out s1 h => UpdateRating_names srt s id r out s1 h,
   fun s h => reachable_names_nodup srt s h⟩

/-- C13 on the example data, where two users drew the same name: the seeded
    store and the updated store have pairwise distinct usernames. -/
theorem C13_usernames_distinct_witness :
    SeedUsers insertionSorter exampleRnd NewLeaderboardService 5 100 900
      = some (5, exampleStore) ∧
    (exampleStore.users.map (fun u => u.Username)).Nodup ∧
    exampleStore.users.map (fun u => u.Username)
      = ["neha", "rahul", "rahul_1", "amit", "vikram"] ∧
    (exampleUpdated.users.map (fun u => u.Username)).Nodup :=
  ⟨by decide,
   (C13_usernames_distinct insertionSorter).1 exampleRnd NewLeaderboardService 5 100 900 5
     exampleStore (by decide),
   by decide,
   (C13_usernames_distinct insertionSorter).2.2 exampleUpdated
     (Reachable.update exampleStore 3 1000 (some ⟨1, "amit", 1000, 3⟩, true) exampleUpdated
       (Reachable.seed exampleRnd NewLeaderboardService 5 100 900 5 exampleStore
         Reachable.new (by decide))
       (by decide))⟩

theorem Intn_bounds (raw : Nat) (R off : Int) (h : Intn raw R = some off) :
    0 < R ∧ 0 ≤ off ∧ off < R := by
  unfold Intn at h
  split at h
  · simp at h
  · rename_i hR
    simp only [Option.some.injEq] at h
    have hpos : 0 < R := by omega
    rw [← h]
    exact ⟨hpos, Int.emod_nonneg _ (by omega), Int.emod_lt_of_pos _ hpos⟩

theorem seedUser_ratings (s s1 : LeaderboardService) (i lo hi : Int) (d : Draw)
    (hlo : -(2 ^ 63) ≤ lo) (hhi : hi < 2 ^ 63) (hle : lo ≤ hi)
    (h : seedUser s i lo hi d = some s1)
    (hP : ∀ u ∈ s.users, lo ≤ u.Rating ∧ u.Rating ≤ hi) :
    ∀ u ∈ s1.users, lo ≤ u.Rating ∧ u.Rating ≤ hi := by
  obtain ⟨base, k, off, _, _, _, _, hoff, rfl⟩ := seedUser_cases s s1 i lo hi d h
  obtain ⟨hR, h0, hlt⟩ := Intn_bounds _ _ _ hoff
  intro u hu
  rcases List.mem_append.1 hu with hu | hu
  · exact hP u hu
  · simp at hu
    subst hu
    simp only
    unfold wrapInt at hR hlt ⊢
    omega

theorem seedLoop_ids (rnd : Nat → Draw) (n lo hi : Int) :
    ∀ (fuel : Nat) (i : Int) (s s1 : LeaderboardService),
      seedLoop rnd n lo hi fuel i s = some s1 →
      s1.users.map (fun u => u.ID) =
        s.users.map (fun u => u.ID) ++
          (List.range (n + 1 - i).toNat).map (fun (j : Nat) => i + (j : Int)) := by
  intro fuel
  induction fuel with
  | zero =>
    intro i s s1 h
    simp only [seedLoop] at h
    split at h
    · simp at h
    · rename_i hin
      simp only [Option.some.injEq] at h
      have h0 : (n + 1 - i).toNat = 0 := by omega
      rw [← h, h0]
      simp
  | succ fuel ih =>
    intro i s s1 h
    simp only [seedLoop] at h
    split at h
    · rename_i hin
      cases hu : seedUser s i lo hi (rnd i.toNat) with
      | none => rw [hu] at h; simp at h
      | some s2 =>
        rw [hu] at h
        obtain ⟨base, k, off, _, _, _, _, _, rfl⟩ := seedUser_cases s s2 i lo hi _ hu
        rw [ih (i + 1) _ s1 h]
        have hk : (n + 1 - i).toNat = (n + 1 - (i + 1)).toNat + 1 := by omega
        rw [hk, List.range_succ_eq_map]
        simp only [List.map_append, List.map_cons, List.map_nil, List.append_assoc,
          List.singleton_append, List.map_map]
        congr 2
        · simp
        · apply List.map_congr_left
          intro j _
          simp only [Function.comp]
          push_cast
          omega
    · rename_i hin
      simp only [Option.some.injEq] at h
      have h0 : (n + 1 - i).toNat = 0 := by omega
      rw [← h, h0]
      simp

theorem idsUpTo_nodup (n : Int) : (idsUpTo n).Nodup := by
  unfold idsUpTo
  refine List.Nodup.map ?_ (List.nodup_range _)
  intro a b hab
  simpa using hab

theorem SeedUsers_ids (srt : SliceSorter) (rnd : Nat → Draw) (s : LeaderboardService)
    (n lo hi k : Int) (s1 : LeaderboardService)
    (h : SeedUsers srt rnd s n lo hi = some (k, s1)) :
    (s1.users.map (fun u => u.ID)).Perm (idsUpTo n) := by
  obtain ⟨_, s0, hs0, rfl, _⟩ := SeedUsers_cases srt rnd s n lo hi k s1 h
  have hids := seedLoop_ids rnd n lo hi n.toNat 1 NewLeaderboardService s0 hs0
  rw [sortUsers_users]
  refine ((srt.perm _).map _).trans ?_
  rw [hids]
  simp only [NewLeaderboardService, List.map_nil, List.nil_append, idsUpTo]
  have : (n + 1 - 1).toNat = n.toNat := by omega
  rw [this]
  apply List.Perm.of_eq
  apply List.map_congr_left
  intro j _
  omega

/-- C14: for `n ≥ 0` and machine integers `minRating ≤ maxRating`, whatever the
    random source yields, a store left by `SeedUsers(n, minRating, maxRating)`
    holds exactly the ids `1..n`, each once, and every rating lies between
    `minRating` and `maxRating`; and `SeedUsers` does leave such a store when
    `n` is within the capacity `make` grants and the size of the rating range
    fits the machine integer. -/
theorem C14_seed_ids_and_ratings (srt : SliceSorter) (rnd : Nat → Draw)
    (s : LeaderboardService) (n lo hi : Int) (hn : 0 ≤ n)
    (hlo : -(2 ^ 63) ≤ lo) (hhi : hi < 2 ^ 63) (hle : lo ≤ hi) :
    (∀ (k : Int) (s1 : LeaderboardService), SeedUsers srt rnd s n lo hi = some (k, s1) →
      (s1.users.map (fun u => u.ID)).Perm (idsUpTo n) ∧
      (s1.users.map (fun u => u.ID)).Nodup ∧
      ∀ u ∈ s1.users, lo ≤ u.Rating ∧ u.Rating ≤ hi) ∧
    (userSize * n ≤ maxAlloc → hi - lo < 2 ^ 63 - 1 →
      ∃ s1, SeedUsers srt rnd s n lo hi = some (n, s1)) := by
  constructor
  · intro k s1 h
    have hids := SeedUsers_ids srt rnd s n lo hi k s1 h
    refine ⟨hids, (hids.nodup_iff).2 (idsUpTo_nodup n), ?_⟩
    obtain ⟨_, s0, hs0, rfl, _⟩ := SeedUsers_cases srt rnd s n lo hi k s1 h
    have hinv := seedLoop_invariant (fun t => ∀ u ∈ t.users, lo ≤ u.Rating ∧ u.Rating ≤ hi)
      rnd n lo hi (fun t i d t1 hP ht => seedUser_ratings t t1 i lo hi d hlo hhi hle ht hP)
      n.toNat 1 NewLeaderboardService s0
      (by intro u hu; simp [NewLeaderboardService] at hu) hs0
    intro u hu
    rw [sortUsers_users] at hu
    exact hinv u ((srt.perm _).subset hu)
  · intro hcap hr
    exact SeedUsers_isSome srt rnd s n lo hi hn hcap (seedRange_pos lo hi hle hr)

/-- C14 on the example data: `SeedUsers(5, 100, 900)` leaves the ids `1..5`
    and ratings within `[100, 900]`. -/
theorem C14_seed_ids_and_ratings_witness :
    (0 : Int) ≤ 5 ∧ (-(2 ^ 63) : Int) ≤ 100 ∧ (900 : Int) < 2 ^ 63 ∧ (100 : Int) ≤ 900 ∧
    ((∀ (k : Int) (s1 : LeaderboardService),
        SeedUsers insertionSorter exampleRnd NewLeaderboardService 5 100 900 = some (k, s1) →
        (s1.users.map (fun u => u.ID)).Perm (idsUpTo 5) ∧
        (s1.users.map (fun u => u.ID)).Nodup ∧
        ∀ u ∈ s1.users, (100 : Int) ≤ u.Rating ∧ u.Rating ≤ 900) ∧
     (userSize * 5 ≤ maxAlloc → (900 : Int) - 100 < 2 ^ 63 - 1 →
        ∃ s1, SeedUsers insertionSorter exampleRnd NewLeaderboardService 5 100 900
          = some (5, s1))) ∧
    SeedUsers insertionSorter exampleRnd NewLeaderboardService 5 100 900
      = some (5, exampleStore) ∧
    exampleStore.users.map (fun u => u.ID) = [4, 1, 2, 3, 5] ∧
    idsUpTo 5 = [1, 2, 3, 4, 5] :=
  ⟨by decide, by decide, by decide, by decide,
   C14_seed_ids_and_ratings insertionSorter exampleRnd NewLeaderboardService 5 100 900
     (by decide) (by decide) (by decide) (by decide),
   by decide, by decide, by decide⟩

/-! ## SeedUsers replaces the store -/

/-- C12 as stated fails in two ways.  With `n = 1` and the bounds
    `-2^62 ≤ 2^62`, both machine integers, the size of the rating range
    overflows, `rand.Intn` panics and `SeedUsers` returns nothing.  With
    `n = 2^43 + 1` and the bounds `100 ≤ 5000` the capacity asked of `make` is
    past what the runtime grants, `make` panics and `SeedUsers` returns
    nothing. -/
theorem C12_seed_count_counterexample :
    ((0 : Int) ≤ 1 ∧ (-(2 ^ 62) : Int) ≤ 2 ^ 62 ∧
      (-(2 ^ 63) : Int) ≤ -(2 ^ 62) ∧ (2 ^ 62 : Int) < 2 ^ 63 ∧
      SeedUsers insertionSorter exampleRnd exampleStore 1 (-(2 ^ 62)) (2 ^ 62) = none ∧
      ¬ ∃ s1, SeedUsers insertionSorter exampleRnd exampleStore 1 (-(2 ^ 62)) (2 ^ 62)
          = some (1, s1)) ∧
    ((0 : Int) ≤ 2 ^ 43 + 1 ∧ (2 ^ 43 + 1 : Int) < 2 ^ 63 ∧ (100 : Int) ≤ 5000 ∧
      SeedUsers insertionSorter exampleRnd exampleStore (2 ^ 43 + 1) 100 5000 = none ∧
      ¬ ∃ s1, SeedUsers insertionSorter exampleRnd exampleStore (2 ^ 43 + 1) 100 5000
          = some (2 ^ 43 + 1, s1)) := by
  have h1 : SeedUsers insertionSorter exampleRnd exampleStore 1 (-(2 ^ 62)) (2 ^ 62) = none := by
    decide
  have h2 : SeedUsers insertionSorter exampleRnd exampleStore (2 ^ 43 + 1) 100 5000 = none :=
    SeedUsers_over_cap _ _ _ _ _ _ (by decide)
  refine ⟨⟨by decide, by decide, by decide, by decide, h1, ?_⟩,
    ⟨by decide, by decide, by decide, h2, ?_⟩⟩
  · rintro ⟨s1, h⟩
    rw [h1] at h
    cases h
  · rintro ⟨s1, h⟩
    rw [h2] at h
    cases h

/-- C12, amended: for every prior store, every `n ≥ 0` within the capacity
    `make` grants (`n` users of 32 bytes need at most `maxAlloc` bytes), every
    `minRating ≤ maxRating` whose range size `maxRating - minRating + 1` fits
    the machine integer, and every outcome of the random source, `SeedUsers`
    returns `n`, `GetTotalUsers` is `n` afterwards, and nothing of the prior
    store remains: the outcome is the same from every prior store, the ids are
    `1..n`, and the keys of both indexes are those of the new users. -/
theorem C12_seed_count (srt : SliceSorter) (rnd : Nat → Draw) (s : LeaderboardService)
    (n lo hi : Int) (hn : 0 ≤ n) (hcap : userSize * n ≤ maxAlloc) (hle : lo ≤ hi)
    (hr : hi - lo < 2 ^ 63 - 1) :
    ∃ s1, SeedUsers srt rnd s n lo hi = some (n, s1) ∧ GetTotalUsers s1 = n ∧
      (∀ s2, SeedUsers srt rnd s2 n lo hi = some (n, s1)) ∧
      (s1.users.map (fun u => u.ID)).Perm (idsUpTo n) ∧
      IndexConsistent s1 := by
  obtain ⟨s1, hs1⟩ := SeedUsers_isSome srt rnd s n lo hi hn hcap (seedRange_pos lo hi hle hr)
  refine ⟨s1, hs1, ?_, fun s2 => hs1, SeedUsers_ids srt rnd s n lo hi n s1 hs1,
    SeedUsers_indexConsistent srt rnd s n lo hi n s1 hs1⟩
  obtain ⟨_, s0, _, _, hk⟩ := SeedUsers_cases srt rnd s n lo hi n s1 hs1
  simp only [GetTotalUsers]
  exact hk.symm

/-- C12 amended, at the example data: seeding five users over the updated
    example store gives the example store again. -/
theorem C12_seed_count_witness :
    (0 : Int) ≤ 5 ∧ userSize * 5 ≤ maxAlloc ∧ (100 : Int) ≤ 900 ∧
    (900 : Int) - 100 < 2 ^ 63 - 1 ∧
    (∃ s1, SeedUsers insertionSorter exampleRnd exampleUpdated 5 100 900 = some (5, s1) ∧
      GetTotalUsers s1 = 5 ∧
      (∀ s2, SeedUsers insertionSorter exampleRnd s2 5 100 900 = some (5, s1)) ∧
      (s1.users.map (fun u => u.ID)).Perm (idsUpTo 5) ∧
      IndexConsistent s1) ∧
    SeedUsers insertionSorter exampleRnd exampleUpdated 5 100 900 = some (5, exampleStore) :=
  ⟨by decide, by decide, by decide, by decide,
   C12_seed_count insertionSorter exampleRnd exampleUpdated 5 100 900
     (by decide) (by decide) (by decide) (by decide),
   by decide⟩

/-! ## The uniqueness loop, try by try -/

/-- With `k` the first unused try from `t` on, the loop started at try `t`
    needs exactly `k - t + 1` iterations. -/
theorem uniqueLoop_exact (m : List (String × Nat)) (base : String) :
    ∀ (fuel t k : Nat), t ≤ k → mapGet m (tryName base k) = none →
      (∀ j, t ≤ j → j < k → mapGet m (tryName base j) ≠ none) →
      (k - t < fuel →
        uniqueLoop m base fuel (tryName base t) (t + 1) = some (tryName base k, k + 1)) ∧
      (fuel ≤ k - t → uniqueLoop m base fuel (tryName base t) (t + 1) = none) := by
  intro fuel
  induction fuel with
  | zero =>
    intro t k _ _ _
    exact ⟨fun h => by omega, fun _ => rfl⟩
  | succ fuel ih =>
    intro t k htk hfree htaken
    by_cases htk2 : t = k
    · subst htk2
      refine ⟨fun _ => by simp [uniqueLoop, hfree], fun h => by omega⟩
    · have hne := htaken t (le_refl _) (by omega)
      obtain ⟨p, hp⟩ : ∃ p, mapGet m (tryName base t) = some p := by
        cases hg : mapGet m (tryName base t) with
        | none => exact absurd hg hne
        | some p => exact ⟨p, rfl⟩
      have hrec := ih (t + 1) k (by omega) hfree (fun j h1 h2 => htaken j (by omega) h2)
      have hstep : uniqueLoop m base (fuel + 1) (tryName base t) (t + 1)
          = uniqueLoop m base fuel (tryName base (t + 1)) (t + 1 + 1) := by
        simp only [uniqueLoop, hp]
        rfl
      rw [hstep]
      exact ⟨fun h => hrec.1 (by omega), fun h => hrec.2 (by omega)⟩

/-- C16: the uniqueness loop terminates for every username index and every
    candidate name.  With `k` the least try number whose name is unused (try 0
    is the candidate itself, try `j ≥ 1` is candidate + "_" + j), `k` is at most
    the number of names in the index, the loop makes exactly `k + 1` tries (it
    returns with any larger bound on the iterations and with no smaller one),
    the counter starts at 1 and grows by one with each retry, ending at
    `k + 1`, and the name returned is that of try `k`. -/
theorem C16_unique_name_loop (byName : List (String × Nat)) (baseUsername : String) :
    ∃ k, k ≤ ((byName.map Prod.fst).dedup).length ∧
      mapGet byName (tryName baseUsername k) = none ∧
      (∀ j, j < k → mapGet byName (tryName baseUsername j) ≠ none) ∧
      (k = 0 → tryName baseUsername k = baseUsername) ∧
      (1 ≤ k → tryName baseUsername k = baseUsername ++ "_" ++ Itoa k) ∧
      uniqueLoop byName baseUsername (byName.length + 1) baseUsername 1
        = some (tryName baseUsername k, k + 1) ∧
      (∀ fuel, k + 1 ≤ fuel →
        uniqueLoop byName baseUsername fuel baseUsername 1
          = some (tryName baseUsername k, k + 1)) ∧
      (∀ fuel, fuel ≤ k → uniqueLoop byName baseUsername fuel baseUsername 1 = none) ∧
      (∀ (fuel : Nat) (username : String) (counter : Nat),
        mapGet byName username ≠ none →
        uniqueLoop byName baseUsername (fuel + 1) username counter
          = uniqueLoop byName baseUsername fuel
              (baseUsername ++ "_" ++ Itoa counter) (counter + 1)) := by
  obtain ⟨k, _, hk2, _, hfree, htaken⟩ := uniqueLoop_spec byName baseUsername
    (((byName.map Prod.fst).dedup).length + 1) 0 ((byName.map Prod.fst).dedup)
    (by
      intro k _ hne
      cases hget : mapGet byName (tryName baseUsername k) with
      | none => exact absurd hget hne
      | some p => exact List.mem_dedup.2 (mapGet_some_mem byName _ p hget))
    (by omega)
  have hex := fun fuel => uniqueLoop_exact byName baseUsername fuel 0 k (Nat.zero_le _) hfree
    (fun j _ h2 => htaken j (Nat.zero_le _) h2)
  have hlen : ((byName.map Prod.fst).dedup).length ≤ byName.length := by
    have := List.Sublist.length_le (List.dedup_sublist (byName.map Prod.fst))
    simpa using this
  refine ⟨k, by omega, hfree, fun j hj => htaken j (Nat.zero_le _) hj, ?_, ?_, ?_, ?_, ?_, ?_⟩
  · intro h0; subst h0; rfl
  · intro h1
    obtain ⟨k1, rfl⟩ : ∃ k1, k = k1 + 1 := ⟨k - 1, by omega⟩
    rfl
  · exact (hex (byName.length + 1)).1 (by omega)
  · intro fuel hf
    exact (hex fuel).1 (by omega)
  · intro fuel hf
    exact (hex fuel).2 (by omega)
  · intro fuel username counter hne
    cases hg : mapGet byName username with
    | none => exact absurd hg hne
    | some p => simp only [uniqueLoop, hg]

/-- C16 at the username index of the example store and the candidate `rahul`:
    `rahul` and `rahul_1` are taken, the third try `rahul_2` is returned. -/
theorem C16_unique_name_loop_witness :
    (∃ k, k ≤ ((exampleStore.userByName.map Prod.fst).dedup).length ∧
      mapGet exampleStore.userByName (tryName "rahul" k) = none ∧
      (∀ j, j < k → mapGet exampleStore.userByName (tryName "rahul" j) ≠ none) ∧
      (k = 0 → tryName "rahul" k = "rahul") ∧
      (1 ≤ k → tryName "rahul" k = "rahul" ++ "_" ++ Itoa k) ∧
      uniqueLoop exampleStore.userByName "rahul" (exampleStore.userByName.length + 1) "rahul" 1
        = some (tryName "rahul" k, k + 1) ∧
      (∀ fuel, k + 1 ≤ fuel →
        uniqueLoop exampleStore.userByName "rahul" fuel "rahul" 1
          = some (tryName "rahul" k, k + 1)) ∧
      (∀ fuel, fuel ≤ k → uniqueLoop exampleStore.userByName "rahul" fuel "rahul" 1 = none) ∧
      (∀ (fuel : Nat) (username : String) (counter : Nat),
        mapGet exampleStore.userByName username ≠ none →
        uniqueLoop exampleStore.userByName "rahul" (fuel + 1) username counter
          = uniqueLoop exampleStore.userByName "rahul" fuel
              ("rahul" ++ "_" ++ Itoa counter) (counter + 1))) ∧
    uniqueLoop exampleStore.userByName "rahul" 6 "rahul" 1 = some ("rahul_2", 3) ∧
    uniqueLoop exampleStore.userByName "rahul" 3 "rahul" 1 = some ("rahul_2", 3) ∧
    uniqueLoop exampleStore.userByName "rahul" 2 "rahul" 1 = none ∧
    uniqueLoop exampleStore.userByName "priya" 6 "priya" 1 = some ("priya", 1) :=
  ⟨C16_unique_name_loop exampleStore.userByName "rahul", by decide, by decide, by decide,
   by decide⟩

/-! ## Independence from the arrangement of ties -/

theorem higherCount_perm (l1 l2 : List User) (r : Int) (h : l1.Perm l2) :
    higherCount l1 r = higherCount l2 r :=
  h.countP_eq _

theorem ratings_eq_of_sorted_perm (l1 l2 : List User) (h1 : SortedDesc l1) (h2 : SortedDesc l2)
    (hp : l1.Perm l2) : l1.map (fun u => u.Rating) = l2.map (fun u => u.Rating) := by
  haveI : IsAntisymm Int (fun a b => b ≤ a) := ⟨fun _ _ hab hba => le_antisymm hba hab⟩
  refine List.eq_of_perm_of_sorted (r := fun a b : Int => b ≤ a) (hp.map _) ?_ ?_
  · exact List.pairwise_map.2 h1
  · exact List.pairwise_map.2 h2

theorem rank_perm (s1 s2 : LeaderboardService) (r : Int) (h1 : SortedDesc s1.users)
    (h2 : SortedDesc s2.users) (hp : s1.users.Perm s2.users) :
    getTieAwareRankUnlocked s1 r = getTieAwareRankUnlocked s2 r := by
  rw [rank_sorted s1 r h1, rank_sorted s2 r h2, higherCount_perm _ _ r hp]

/-- Two sorted arrangements of the same users run the page loop in step: the
    entries appended agree in rank and rating. -/
theorem pageLoop_perm (s1 s2 : LeaderboardService) (h1 : SortedDesc s1.users)
    (h2 : SortedDesc s2.users) (hp : s1.users.Perm s2.users) (stop : Int) :
    ∀ (fuel : Nat) (i : Int) (acc1 acc2 : List LeaderboardEntry),
      acc1.map (fun e => (e.Rank, e.Rating)) = acc2.map (fun e => (e.Rank, e.Rating)) →
      (pageLoop s1 stop fuel i acc1).map (fun es => es.map (fun e => (e.Rank, e.Rating))) =
      (pageLoop s2 stop fuel i acc2).map (fun es => es.map (fun e => (e.Rank, e.Rating))) := by
  have hr := ratings_eq_of_sorted_perm _ _ h1 h2 hp
  intro fuel
  induction fuel with
  | zero =>
    intro i acc1 acc2 hacc
    simp only [pageLoop]
    split
    · rfl
    · simp [hacc]
  | succ fuel ih =>
    intro i acc1 acc2 hacc
    simp only [pageLoop]
    split
    · split
      · rfl
      · have hget := congrArg (fun l => l.get? i.toNat) hr
        simp only [List.get?_eq_getElem?, List.getElem?_map] at hget
        rw [List.get?_eq_getElem?, List.get?_eq_getElem?]
        cases hu1 : s1.users[i.toNat]? with
        | none =>
          rw [hu1] at hget
          cases hu2 : s2.users[i.toNat]? with
          | none => rfl
          | some u2 => rw [hu2] at hget; simp at hget
        | some u1 =>
          rw [hu1] at hget
          cases hu2 : s2.users[i.toNat]? with
          | none => rw [hu2] at hget; simp at hget
          | some u2 =>
            rw [hu2] at hget
            have hrat : u1.Rating = u2.Rating := by simpa using hget
            simp only [rank_sorted s1 _ h1, rank_sorted s2 _ h2]
            apply ih
            simp only [List.map_append, List.map_cons, List.map_nil, hacc, hrat,
              higherCount_perm _ _ _ hp]
    · simp [hacc]

theorem GetLeaderboard_perm (s1 s2 : LeaderboardService) (h1 : SortedDesc s1.users)
    (h2 : SortedDesc s2.users) (hp : s1.users.Perm s2.users) (limit offset : Int) :
    (GetLeaderboard s1 limit offset).map rankRatingView =
    (GetLeaderboard s2 limit offset).map rankRatingView := by
  have hlen : s1.users.length = s2.users.length := hp.length_eq
  have key : ∀ (stop : Int),
      Option.map rankRatingView
        (match pageLoop s1 stop (stop - offset).toNat offset [] with
          | none => (none : Option (List LeaderboardEntry × Int))
          | some entries => some (entries, (s2.users.length : Int))) =
      Option.map rankRatingView
        (match pageLoop s2 stop (stop - offset).toNat offset [] with
          | none => (none : Option (List LeaderboardEntry × Int))
          | some entries => some (entries, (s2.users.length : Int))) := by
    intro stop
    have hloop := pageLoop_perm s1 s2 h1 h2 hp stop (stop - offset).toNat offset [] [] rfl
    cases e1 : pageLoop s1 stop (stop - offset).toNat offset [] with
    | none =>
      cases e2 : pageLoop s2 stop (stop - offset).toNat offset [] with
      | none => rfl
      | some es2 => rw [e1, e2] at hloop; simp at hloop
    | some es1 =>
      cases e2 : pageLoop s2 stop (stop - offset).toNat offset [] with
      | none => rw [e1, e2] at hloop; simp at hloop
      | some es2 =>
        rw [e1, e2] at hloop
        simp only [Option.map_some', Option.some.injEq] at hloop
        simp only [Option.map_some', rankRatingView, hloop]
  simp only [GetLeaderboard, hlen]
  split
  · rfl
  · split
    · split
      · rfl
      · exact key _
    · split
      · rfl
      · exact key _

theorem GetUserByID_perm (s1 s2 : LeaderboardService) (hc1 : Consistent s1)
    (hc2 : Consistent s2) (hp : s1.users.Perm s2.users) (id : Int) :
    GetUserByID s1 id = GetUserByID s2 id := by
  by_cases h : ∃ u ∈ s1.users, u.ID = id
  · obtain ⟨u, hu, huid⟩ := h
    rw [GetUserByID_present s1 id hc1 u hu huid,
      GetUserByID_present s2 id hc2 u (hp.subset hu) huid]
    simp only [resultOf, higherCount_perm _ _ _ hp]
  · have h2 : ¬ ∃ u ∈ s2.users, u.ID = id := by
      rintro ⟨u, hu, huid⟩
      exact h ⟨u, hp.symm.subset hu, huid⟩
    rw [GetUserByID_absent s1 id hc1 h, GetUserByID_absent s2 id hc2 h2]

/-- On a sorted store every entry of a returned page is the entry of the user
    in its slot: entry `i` belongs to slot `offset + i`. -/
theorem GetLeaderboard_entry (s : LeaderboardService) (limit offset : Int)
    (hs : SortedDesc s.users) (es : List LeaderboardEntry) (t : Int)
    (h : GetLeaderboard s limit offset = some (es, t)) :
    t = s.users.length ∧
    ∀ i e, es.get? i = some e →
      ∃ u, s.users.get? (offset.toNat + i) = some u ∧ e = entryOf s.users u := by
  by_cases hge : offset ≥ (s.users.length : Int)
  · simp only [GetLeaderboard, hge, if_true, Option.some.injEq, Prod.mk.injEq] at h
    obtain ⟨h1, h2⟩ := h
    subst h1
    exact ⟨h2.symm, fun i e he => by simp at he⟩
  · obtain ⟨stop, hstopdef⟩ : ∃ stop : Int, stop =
        (if wrapInt (offset + limit) > (s.users.length : Int) then (s.users.length : Int)
          else wrapInt (offset + limit)) := ⟨_, rfl⟩
    have hstop : stop ≤ s.users.length := by
      rw [hstopdef]
      split <;> omega
    simp only [GetLeaderboard, hge, if_false, ← hstopdef] at h
    by_cases hneg : stop - offset < 0
    · simp [hneg] at h
    · simp only [hneg, if_false] at h
      cases hloop : pageLoop s stop (stop - offset).toNat offset [] with
      | none => rw [hloop] at h; simp at h
      | some entries =>
        rw [hloop] at h
        simp only [Option.some.injEq, Prod.mk.injEq] at h
        obtain ⟨h1, h2⟩ := h
        subst h1
        refine ⟨h2.symm, ?_⟩
        by_cases ho : 0 ≤ offset
        · obtain ⟨o, rfl⟩ := Int.eq_ofNat_of_zero_le ho
          rw [pageLoop_sorted s hs stop hstop _ o [] (le_refl _)] at hloop
          simp only [Option.some.injEq, List.nil_append] at hloop
          subst hloop
          intro i e he
          rw [List.get?_eq_getElem?, List.getElem?_map] at he
          cases hu : ((s.users.drop o).take (stop - (o : Int)).toNat)[i]? with
          | none => rw [hu] at he; simp at he
          | some u =>
            rw [hu] at he
            simp only [Option.map_some', Option.some.injEq] at he
            refine ⟨u, ?_, he.symm⟩
            rw [List.getElem?_take] at hu
            split at hu
            · rw [List.getElem?_drop] at hu
              rw [List.get?_eq_getElem?]
              simpa using hu
            · cases hu
        · by_cases heq : stop = offset
          · have hf : (stop - offset).toNat = 0 := by omega
            have hlt : ¬ offset < stop := by omega
            rw [hf] at hloop
            simp only [pageLoop, hlt, if_false, Option.some.injEq] at hloop
            subst hloop
            intro i e he
            simp at he
          · obtain ⟨f, hf⟩ : ∃ f, (stop - offset).toNat = f + 1 :=
              ⟨(stop - offset).toNat - 1, by omega⟩
            have hlt : offset < stop := by omega
            have hn : offset < 0 := by omega
            rw [hf] at hloop
            simp [pageLoop, hlt, hn] at hloop

/-- Two sorted arrangements of the same users show, for the same `limit` and
    `offset`, pages of the same length whose entries in the same place belong
    to the users in the same slot of either arrangement; these two users have
    the same rating and rank, and are the same user unless the rating is
    shared. -/
theorem GetLeaderboard_perm_entries (s1 s2 : LeaderboardService) (h1 : SortedDesc s1.users)
    (h2 : SortedDesc s2.users) (hp : s1.users.Perm s2.users) (limit offset : Int)
    (es1 : List LeaderboardEntry) (t1 : Int)
    (h : GetLeaderboard s1 limit offset = some (es1, t1)) :
    ∃ es2, GetLeaderboard s2 limit offset = some (es2, t1) ∧ es2.length = es1.length ∧
      ∀ i e1 e2, es1.get? i = some e1 → es2.get? i = some e2 →
        ∃ u1 u2, s1.users.get? (offset.toNat + i) = some u1 ∧
          s2.users.get? (offset.toNat + i) = some u2 ∧
          u1.Rating = u2.Rating ∧
          e1 = { Rank := 1 + (higherCount s1.users u1.Rating : Int), Username := u1.Username,
                 Rating := u1.Rating, ID := u1.ID } ∧
          e2 = { Rank := 1 + (higherCount s1.users u1.Rating : Int), Username := u2.Username,
                 Rating := u1.Rating, ID := u2.ID } ∧
          ((∀ v ∈ s1.users, v.Rating = u1.Rating → v = u1) → e1 = e2) := by
  have hview := GetLeaderboard_perm s1 s2 h1 h2 hp limit offset
  rw [h] at hview
  cases h2get : GetLeaderboard s2 limit offset with
  | none => rw [h2get] at hview; simp at hview
  | some page2 =>
    obtain ⟨es2, t2⟩ := page2
    rw [h2get] at hview
    simp only [Option.map_some', Option.some.injEq, rankRatingView, Prod.mk.injEq] at hview
    obtain ⟨hmap, ht⟩ := hview
    subst ht
    have hlen : es2.length = es1.length := by
      have := congrArg List.length hmap
      simpa using this.symm
    refine ⟨es2, rfl, hlen, ?_⟩
    intro i e1 e2 he1 he2
    obtain ⟨_, hent1⟩ := GetLeaderboard_entry s1 limit offset h1 es1 t1 h
    obtain ⟨_, hent2⟩ := GetLeaderboard_entry s2 limit offset h2 es2 t1 h2get
    obtain ⟨u1, hu1, rfl⟩ := hent1 i e1 he1
    obtain ⟨u2, hu2, rfl⟩ := hent2 i e2 he2
    have hr := ratings_eq_of_sorted_perm _ _ h1 h2 hp
    have hrat : u1.Rating = u2.Rating := by
      have hget := congrArg (fun l => l.get? (offset.toNat + i)) hr
      simp only [List.get?_eq_getElem?, List.getElem?_map] at hget
      rw [List.get?_eq_getElem?] at hu1 hu2
      rw [hu1, hu2] at hget
      simpa using hget
    refine ⟨u1, u2, hu1, hu2, hrat, rfl, ?_, ?_⟩
    · simp only [entryOf, ← hrat, higherCount_perm _ _ _ hp.symm]
    · intro hall
      have hmem : u2 ∈ s1.users := hp.symm.subset (List.get?_mem hu2)
      have : u2 = u1 := hall u2 hmem hrat.symm
      subst this
      simp only [entryOf, higherCount_perm _ _ _ hp.symm]

/-- C18: rank values do not depend on how the sort arranges ties.  For two
    consistent stores whose sequences are rearrangements of one another (both
    sorted by rating descending), `getTieAwareRankUnlocked` gives every rating
    the same rank, `GetUserByID` gives every id the same result, and
    `GetLeaderboard(limit, offset)` gives the same total and the same sequence
    of (rank, rating) pairs.  Only ids and usernames among equal-rated entries
    may differ: the entries in the same place of the two pages carry the id and
    username of the users in the same slot of the two sequences, which have the
    same rating, and the two entries are equal when no other user has that
    rating. -/
theorem C18_ranks_independent_of_ties (s1 s2 : LeaderboardService) (hc1 : Consistent s1)
    (hc2 : Consistent s2) (hp : s1.users.Perm s2.users) :
    (∀ r, getTieAwareRankUnlocked s1 r = getTieAwareRankUnlocked s2 r) ∧
    (∀ id, GetUserByID s1 id = GetUserByID s2 id) ∧
    (∀ limit offset, (GetLeaderboard s1 limit offset).map rankRatingView =
      (GetLeaderboard s2 limit offset).map rankRatingView) ∧
    (∀ (limit offset : Int) (es1 : List LeaderboardEntry) (t1 : Int),
      GetLeaderboard s1 limit offset = some (es1, t1) →
      ∃ es2, GetLeaderboard s2 limit offset = some (es2, t1) ∧ es2.length = es1.length ∧
        ∀ i e1 e2, es1.get? i = some e1 → es2.get? i = some e2 →
          ∃ u1 u2, s1.users.get? (offset.toNat + i) = some u1 ∧
            s2.users.get? (offset.toNat + i) = some u2 ∧
            u1.Rating = u2.Rating ∧
            e1 = { Rank := 1 + (higherCount s1.users u1.Rating : Int),
                   Username := u1.Username, Rating := u1.Rating, ID := u1.ID } ∧
            e2 = { Rank := 1 + (higherCount s1.users u1.Rating : Int),
                   Username := u2.Username, Rating := u1.Rating, ID := u2.ID } ∧
            ((∀ v ∈ s1.users, v.Rating = u1.Rating → v = u1) → e1 = e2)) :=
  ⟨fun r => rank_perm s1 s2 r hc1.1 hc2.1 hp,
   fun id => GetUserByID_perm s1 s2 hc1 hc2 hp id,
   fun limit offset => GetLeaderboard_perm s1 s2 hc1.1 hc2.1 hp limit offset,
   fun limit offset es1 t1 h =>
     GetLeaderboard_perm_entries s1 s2 hc1.1 hc2.1 hp limit offset es1 t1 h⟩

theorem exampleStoreSwapped_consistent : Consistent exampleStoreSwapped :=
  ⟨by decide, by decide,
   (reachable_invariant tieReversingSorter exampleStoreSwapped
     (Reachable.seed exampleRnd NewLeaderboardService 5 100 900 5 exampleStoreSwapped
       Reachable.new (by decide))).2⟩

/-- C18 at the example store and the arrangement with its two 500 users
    swapped: the second page differs in ids and usernames only. -/
theorem C18_ranks_independent_of_ties_witness :
    Consistent exampleStore ∧ Consistent exampleStoreSwapped ∧
    exampleStore.users.Perm exampleStoreSwapped.users ∧
    ((∀ r, getTieAwareRankUnlocked exampleStore r = getTieAwareRankUnlocked exampleStoreSwapped r) ∧
    (∀ id, GetUserByID exampleStore id = GetUserByID exampleStoreSwapped id) ∧
    (∀ limit offset, (GetLeaderboard exampleStore limit offset).map rankRatingView =
      (GetLeaderboard exampleStoreSwapped limit offset).map rankRatingView) ∧
    (∀ (limit offset : Int) (es1 : List LeaderboardEntry) (t1 : Int),
      GetLeaderboard exampleStore limit offset = some (es1, t1) →
      ∃ es2, GetLeaderboard exampleStoreSwapped limit offset = some (es2, t1) ∧ es2.length = es1.length ∧
        ∀ i e1 e2, es1.get? i = some e1 → es2.get? i = some e2 →
          ∃ u1 u2, exampleStore.users.get? (offset.toNat + i) = some u1 ∧
            exampleStoreSwapped.users.get? (offset.toNat + i) = some u2 ∧
            u1.Rating = u2.Rating ∧
            e1 = { Rank := 1 + (higherCount exampleStore.users u1.Rating : Int),
                   Username := u1.Username, Rating := u1.Rating, ID := u1.ID } ∧
            e2 = { Rank := 1 + (higherCount exampleStore.users u1.Rating : Int),
                   Username := u2.Username, Rating := u1.Rating, ID := u2.ID } ∧
            ((∀ v ∈ exampleStore.users, v.Rating = u1.Rating → v = u1) → e1 = e2))) ∧
    GetLeaderboard exampleStore 2 1
      = some ([⟨2, "rahul", 500, 1⟩, ⟨2, "rahul_1", 500, 2⟩], 5) ∧
    GetLeaderboard exampleStoreSwapped 2 1
      = some ([⟨2, "rahul_1", 500, 2⟩, ⟨2, "rahul", 500, 1⟩], 5) :=
  ⟨exampleStore_consistent, exampleStoreSwapped_consistent, by decide,
   C18_ranks_independent_of_ties exampleStore exampleStoreSwapped exampleStore_consistent
     exampleStoreSwapped_consistent (by decide),
   by decide, by decide⟩

/-! ## Ranks along a page -/

/-- In a sorted sequence the user in slot `k` is rated at most `r` exactly when
    `k` is at or past the number of users rated above `r`. -/
theorem sorted_boundary (l : List User) (r : Int) (h : SortedDesc l) (k : Nat) (v : User)
    (hv : l.get? k = some v) : v.Rating ≤ r ↔ higherCount l r ≤ k := by
  have hk : k < l.length := (List.get?_eq_some.1 hv).1
  have := rankPred_sorted l r h k hk
  simp only [rankPred, hv, Option.some.injEq, decide_eq_decide] at this
  exact this

theorem sorted_get_le (l : List User) (h : SortedDesc l) (j p : Nat) (v u : User)
    (hjp : j < p) (hv : l.get? j = some v) (hu : l.get? p = some u) : u.Rating ≤ v.Rating := by
  obtain ⟨hj, hvj⟩ := List.get?_eq_some.1 hv
  obtain ⟨hp, hup⟩ := List.get?_eq_some.1 hu
  have := (List.pairwise_iff_get.1 h) ⟨j, hj⟩ ⟨p, hp⟩ hjp
  rw [hvj, hup] at this
  exact this

/-- The number of users rated above the user in slot `p` is at most `p`, and it
    is `p` exactly when no earlier slot holds the same rating. -/
theorem higherCount_at_slot (l : List User) (h : SortedDesc l) (p : Nat) (u : User)
    (hu : l.get? p = some u) :
    higherCount l u.Rating ≤ p ∧
    (higherCount l u.Rating = p ↔
      ∀ j v, j < p → l.get? j = some v → v.Rating ≠ u.Rating) := by
  have hle : higherCount l u.Rating ≤ p := (sorted_boundary l u.Rating h p u hu).1 (le_refl _)
  refine ⟨hle, ?_, ?_⟩
  · intro heq j v hj hv hsame
    have := (sorted_boundary l u.Rating h j v hv).1 (by omega)
    omega
  · intro hall
    by_contra hne
    have hlt : higherCount l u.Rating < p := by omega
    have hlen : p < l.length := (List.get?_eq_some.1 hu).1
    have hc : higherCount l u.Rating < l.length := by omega
    have hv : l.get? (higherCount l u.Rating) = some (l.get ⟨_, hc⟩) := List.get?_eq_get hc
    have h1 := (sorted_boundary l u.Rating h _ _ hv).2 (le_refl _)
    have h2 := sorted_get_le l h _ p _ u hlt hv hu
    exact hall _ _ hlt hv (le_antisymm h1 h2)

/-- On a sorted store and for non-negative `limit`, `offset` whose sum stays in
    the integer range, the page is the slice of the sequence turned into
    entries, whether or not `offset` is past the end. -/
theorem GetLeaderboard_valid (s : LeaderboardService) (limit offset : Int)
    (hs : SortedDesc s.users) (hl : 0 ≤ limit) (ho : 0 ≤ offset)
    (hov : offset + limit < 2 ^ 63) :
    GetLeaderboard s limit offset =
      some (((s.users.drop offset.toNat).take limit.toNat).map (entryOf s.users),
            (s.users.length : Int)) := by
  by_cases hlt : offset < s.users.length
  · exact GetLeaderboard_sorted s limit offset hs hl ho hlt hov
  · have hge : offset ≥ (s.users.length : Int) := by omega
    have hdrop : s.users.drop offset.toNat = [] := List.drop_eq_nil_of_le (by omega)
    simp [GetLeaderboard, hge, hdrop]

/-- C19: on a sorted store and for valid `(limit, offset)` (both non-negative,
    their sum inside the integer range) the entries `GetLeaderboard` returns
    have non-decreasing ranks and non-increasing ratings; entry `i` has rank at
    least 1, at most `offset + i + 1` and at most the number of users, and its
    rank equals `offset + i + 1` exactly when no user earlier in the sequence
    has the same rating. -/
theorem C19_page_ranks (s : LeaderboardService) (limit offset : Int)
    (hs : SortedDesc s.users) (hl : 0 ≤ limit) (ho : 0 ≤ offset)
    (hov : offset + limit < 2 ^ 63) :
    ∃ entries, GetLeaderboard s limit offset = some (entries, (s.users.length : Int)) ∧
      entries.Pairwise (fun a b => a.Rank ≤ b.Rank) ∧
      entries.Pairwise (fun a b => b.Rating ≤ a.Rating) ∧
      ∀ i e, entries.get? i = some e →
        1 ≤ e.Rank ∧ e.Rank ≤ offset + i + 1 ∧ e.Rank ≤ s.users.length ∧
        (e.Rank = offset + i + 1 ↔
          ∀ j v, j < offset.toNat + i → s.users.get? j = some v → v.Rating ≠ e.Rating) := by
  refine ⟨_, GetLeaderboard_valid s limit offset hs hl ho hov, ?_, ?_, ?_⟩
  · rw [List.pairwise_map]
    have hsub : ((s.users.drop offset.toNat).take limit.toNat).Sublist s.users :=
      (List.take_sublist _ _).trans (List.drop_sublist _ _)
    refine List.Pairwise.imp ?_ (List.Pairwise.sublist hsub hs)
    intro a b hab
    have := higherCount_mono s.users a.Rating b.Rating hab
    simp only [entryOf]
    omega
  · rw [List.pairwise_map]
    have hsub : ((s.users.drop offset.toNat).take limit.toNat).Sublist s.users :=
      (List.take_sublist _ _).trans (List.drop_sublist _ _)
    exact List.Pairwise.sublist hsub hs
  · intro i e he
    rw [List.get?_eq_getElem?, List.getElem?_map] at he
    cases hu : ((s.users.drop offset.toNat).take limit.toNat)[i]? with
    | none => rw [hu] at he; simp at he
    | some u =>
      rw [hu] at he
      simp only [Option.map_some', Option.some.injEq] at he
      have hu2 : s.users.get? (offset.toNat + i) = some u := by
        rw [List.getElem?_take] at hu
        split at hu
        · rw [List.getElem?_drop] at hu
          rw [List.get?_eq_getElem?]
          exact hu
        · cases hu
      have hlen : offset.toNat + i < s.users.length := (List.get?_eq_some.1 hu2).1
      obtain ⟨hle, hiff⟩ := higherCount_at_slot s.users hs _ u hu2
      subst he
      simp only [entryOf]
      refine ⟨by omega, by omega, by omega, ?_⟩
      constructor
      · intro heq
        exact hiff.1 (by omega)
      · intro hall
        have := hiff.2 hall
        omega

/-- C19 at the example store and the page `limit=3, offset=1`: ranks 2, 2, 4
    for the slots 2, 3, 4. -/
theorem C19_page_ranks_witness :
    SortedDesc exampleStore.users ∧ (0 : Int) ≤ 3 ∧ (0 : Int) ≤ 1 ∧ (1 : Int) + 3 < 2 ^ 63 ∧
    (∃ entries, GetLeaderboard exampleStore 3 1
        = some (entries, (exampleStore.users.length : Int)) ∧
      entries.Pairwise (fun a b => a.Rank ≤ b.Rank) ∧
      entries.Pairwise (fun a b => b.Rating ≤ a.Rating) ∧
      ∀ i e, entries.get? i = some e →
        1 ≤ e.Rank ∧ e.Rank ≤ (1 : Int) + i + 1 ∧ e.Rank ≤ exampleStore.users.length ∧
        (e.Rank = (1 : Int) + i + 1 ↔
          ∀ j v, j < (1 : Int).toNat + i → exampleStore.users.get? j = some v →
            v.Rating ≠ e.Rating)) ∧
    GetLeaderboard exampleStore 3 1
      = some ([⟨2, "rahul", 500, 1⟩, ⟨2, "rahul_1", 500, 2⟩, ⟨4, "amit", 300, 3⟩], 5) :=
  ⟨by decide, by decide, by decide, by decide,
   C19_page_ranks exampleStore 3 1 (by decide) (by decide) (by decide) (by decide),
   by decide⟩

/-! ## The leaderboard endpoint -/

/-- While `offset + 100` stays inside the integer range the handler does what
    its answer says: the limit passed on is within `[1, 100]`, the offset is
    non-negative, and `hasMore` tells whether a user lies beyond the page. -/
theorem handler_page_in_range (s : LeaderboardService) (limit offset : Int)
    (hs : SortedDesc s.users) (hoff : offset < 2 ^ 63 - 100) :
    ∃ resp, LeaderboardHandler.GetLeaderboard s limit offset = some resp ∧
      1 ≤ resp.limit ∧ resp.limit ≤ 100 ∧
      (limit ≤ 0 → resp.limit = 50) ∧ (100 < limit → resp.limit = 100) ∧
      (0 < limit → limit ≤ 100 → resp.limit = limit) ∧
      0 ≤ resp.offset ∧ (offset < 0 → resp.offset = 0) ∧ (0 ≤ offset → resp.offset = offset) ∧
      GetLeaderboard s resp.limit resp.offset = some (resp.data, resp.total) ∧
      resp.total = s.users.length ∧
      (resp.hasMore = true ↔ resp.offset + resp.data.length < resp.total) := by
  obtain ⟨l2, hl2e⟩ : ∃ l2 : Int, l2 = (if (if limit ≤ 0 then 50 else limit) > 100 then 100
      else (if limit ≤ 0 then 50 else limit)) := ⟨_, rfl⟩
  obtain ⟨o1, ho1e⟩ : ∃ o1 : Int, o1 = (if offset < 0 then 0 else offset) := ⟨_, rfl⟩
  have hl2 : 1 ≤ l2 ∧ l2 ≤ 100 ∧ (limit ≤ 0 → l2 = 50) ∧ (100 < limit → l2 = 100) ∧
      (0 < limit → limit ≤ 100 → l2 = limit) := by
    rw [hl2e]
    split <;> split <;> omega
  have ho1 : 0 ≤ o1 ∧ o1 < 2 ^ 63 - 100 ∧ (offset < 0 → o1 = 0) ∧ (0 ≤ offset → o1 = offset) := by
    rw [ho1e]
    split <;> omega
  have hget := GetLeaderboard_valid s l2 o1 hs (by omega) ho1.1 (by omega)
  have hw : wrapInt (o1 + l2) = o1 + l2 := wrapInt_of_inRange _ (by omega) (by omega)
  have hresp : LeaderboardHandler.GetLeaderboard s limit offset =
      some { data := ((s.users.drop o1.toNat).take l2.toNat).map (entryOf s.users),
             total := s.users.length, limit := l2, offset := o1,
             hasMore := decide (o1 + l2 < (s.users.length : Int)) } := by
    simp only [LeaderboardHandler.GetLeaderboard, ← hl2e, ← ho1e, hget, hw]
  refine ⟨_, hresp, hl2.1, hl2.2.1, hl2.2.2.1, hl2.2.2.2.1, hl2.2.2.2.2, ho1.1, ho1.2.2.1,
    ho1.2.2.2, hget, rfl, ?_⟩
  simp only [decide_eq_true_eq, List.length_map, List.length_take, List.length_drop]
  omega

/-- C20: the handler clamps a parsed limit of 50 and offset of 2^63 - 1 to
    themselves, the store answers with no entries and total 5, and the machine
    sum `offset+limit` wraps below zero, so `hasMore` is reported true although
    `offset + 0 < 5` is false: no user lies beyond the page. -/
theorem C20_hasMore_wraps_past_the_end :
    LeaderboardHandler.GetLeaderboard exampleStore 50 (2 ^ 63 - 1)
      = some { data := [], total := 5, limit := 50, offset := 2 ^ 63 - 1, hasMore := true } ∧
    ¬ ((2 ^ 63 - 1 : Int) + (([] : List LeaderboardEntry).length : Int) < 5) ∧
    wrapInt ((2 ^ 63 - 1) + 50) = -(2 ^ 63) + 49 := by
  refine ⟨by decide, by decide, by decide⟩

end Leaderboard
